import Mathlib

/-!
Verification of the DevOps ETL repository's incremental extraction and
historization engine, as a shallow embedding in Lean 4.

The embedding covers:
* `src/transformers/scd_handler.py` (`SCDHandler.apply_scd_type2`),
* the retry loops of `src/extractors/gitlab/gitlab_client.py`
  (`_fetch_users_with_retry`, `_handle_rate_limit_error`,
  `establish_connection`) and of `src/adapters/gitlab/gitlab_client.py`
  (`GitLabClient._connect`),
* the paginated fetcher of `src/extractors/sonarqube/sonarqube_client.py`
  (`SonarQubeClient._paginated_get`),
* the record normalizer `_normalize_user_data` of the extractor client.

Python dictionaries are modelled as association lists of `String × Value`;
Python `None` is `Value.vnone`; `datetime` values are `Value.vtime` over an
abstract `Nat` clock.  Mutation of a shared dict object (the SCD handler
closes the version held both by `current_index` and by `result`) is modelled
by indexing rows of the result list by position: the index maps a key to the
position of the row object, and a close rewrites that position in place.
-/

namespace DevOpsETL

/-- A Python value as it occurs in the records handled by the ETL core:
integers, strings, datetimes (abstract `Nat` instants), booleans, `None`,
and the empty list (the only list literal the embedded code paths build,
as the default of the `identities` user field). -/
inductive Value : Type where
  | vint : Int → Value
  | vstr : String → Value
  | vtime : Nat → Value
  | vbool : Bool → Value
  | vnone : Value
  | vemptylist : Value
deriving DecidableEq, Repr

/-- Python truthiness (`bool(v)`): `None`, `False`, `0`, `""` and `[]` are
falsy, everything else (including any datetime) is truthy. -/
def Value.truthy : Value → Bool
  | .vint n => n != 0
  | .vstr s => s ≠ ""
  | .vtime _ => true
  | .vbool b => b
  | .vnone => false
  | .vemptylist => false

/-- A Python dict, modelled as an association list (keys unique in every
record actually built by the code; lookups take the first match and updates
replace every match, which agree on unique-key lists). -/
abbrev Record := List (String × Value)

/-- `row.get(f)` without a default: `some v` when the key is present,
`none` when absent (where Python's `dict.get` returns `None` and
`row[f]` raises `KeyError`). -/
def Record.get (r : Record) (f : String) : Option Value :=
  (r.find? (fun p => p.1 == f)).map (·.2)

/-- `row.get(f, d)`: lookup with a default. -/
def Record.getD (r : Record) (f : String) (d : Value) : Value :=
  (Record.get r f).getD d

/-- `row[f] = v`: dict assignment.  Replaces the value in place when the key
exists (keeping insertion order) and appends the pair otherwise. -/
def Record.set (r : Record) (f : String) (v : Value) : Record :=
  if r.any (fun p => p.1 == f) then
    r.map (fun p => if p.1 == f then (f, v) else p)
  else
    r ++ [(f, v)]

section SCD
/-!
### `SCDHandler.apply_scd_type2` (src/transformers/scd_handler.py)

```python
current_index = {tuple(row[k] for k in key_fields): row
                 for row in current_data if row.get(current_flag_field, True)}
result = current_data.copy()
for new_row in new_data:
    key = tuple(new_row[k] for k in key_fields)
    existing = current_index.get(key)
    if not existing:
        row = new_row.copy()
        row[effective_date_field] = now
        row[end_date_field] = None
        row[current_flag_field] = True
        result.append(row)
    else:
        changed = any(new_row.get(f) != existing.get(f) for f in new_row
                      if f not in [effective_date_field, end_date_field,
                                   current_flag_field])
        if changed:
            existing[end_date_field] = now
            existing[current_flag_field] = False
            row = new_row.copy()
            row[effective_date_field] = now
            row[end_date_field] = None
            row[current_flag_field] = True
            result.append(row)
return result
```

`KeyError` (a missing key field, on an indexed current row or on an incoming
row) aborts the whole call; the embedding returns `none` in that case.
-/

/-- `tuple(row[k] for k in key_fields)`: the identification key of a row;
`none` models the `KeyError` raised when a key field is missing. -/
def rowKey (keyFields : List String) (r : Record) : Option (List Value) :=
  match keyFields with
  | [] => some []
  | k :: ks =>
    match Record.get r k with
    | none => none
    | some v => (rowKey ks r).map (v :: ·)

/-- `row.get(current_flag_field, True)` used as a filter condition
(Python truthiness, defaulting to `True` when the flag is absent). -/
def isCurrentRow (curF : String) (r : Record) : Bool :=
  (Record.getD r curF (.vbool true)).truthy

/-- The dict comprehension building `current_index`, keeping for each key the
position (into `current_data`) of the row object; a later row with the same
key overwrites an earlier one, which `idxLookup` reproduces by preferring the
rightmost entry.  `i` is the position of the first row of `rows` in the full
list.  `none` models a `KeyError` on a kept row. -/
def buildIndexFrom (keyFields : List String) (curF : String) :
    Nat → List Record → Option (List (List Value × Nat))
  | _, [] => some []
  | i, r :: rs =>
    if isCurrentRow curF r then
      match rowKey keyFields r with
      | none => none
      | some k => (buildIndexFrom keyFields curF (i + 1) rs).map ((k, i) :: ·)
    else
      buildIndexFrom keyFields curF (i + 1) rs

/-- `current_index.get(key)`: the rightmost binding wins, matching the
overwrite semantics of the dict comprehension. -/
def idxLookup (idx : List (List Value × Nat)) (k : List Value) : Option Nat :=
  match idx with
  | [] => none
  | (k', p) :: rest =>
    match idxLookup rest k with
    | some q => some q
    | none => if k' = k then some p else none

/-- `changed = any(new_row.get(f) != existing.get(f) for f in new_row
if f not in [eff, end, cur])`.  `dict.get` maps a missing field to `None`,
so absence compares equal to an explicit `None`. -/
def changedB (effF endF curF : String) (newRow existing : Record) : Bool :=
  newRow.any fun p =>
    (!(p.1 == effF || p.1 == endF || p.1 == curF)) &&
      (Record.getD newRow p.1 .vnone != Record.getD existing p.1 .vnone)

/-- The new open version: `new_row.copy()` with `effective_date = now`,
`end_date = None`, `is_current = True` (in that assignment order). -/
def mkOpen (effF endF curF : String) (now : Value) (newRow : Record) : Record :=
  ((Record.set newRow effF now).set endF .vnone).set curF (.vbool true)

/-- Closing the existing version in place: `end_date = now`,
`is_current = False`. -/
def closeRow (endF curF : String) (now : Value) (r : Record) : Record :=
  (Record.set r endF now).set curF (.vbool false)

/-- One iteration of the `for new_row in new_data` loop, acting on the
current `result` list.  `none` models the `KeyError` on
`tuple(new_row[k] for k in key_fields)`. -/
def scdStep (keyFields : List String) (effF endF curF : String) (now : Value)
    (idx : List (List Value × Nat)) (result : List Record) (newRow : Record) :
    Option (List Record) :=
  match rowKey keyFields newRow with
  | none => none
  | some k =>
    match idxLookup idx k with
    | none => some (result ++ [mkOpen effF endF curF now newRow])
    | some pos =>
      let existing := (result[pos]?).getD []
      -- `if not existing:` is also taken when the indexed dict is empty
      if existing.isEmpty then
        some (result ++ [mkOpen effF endF curF now newRow])
      else if changedB effF endF curF newRow existing then
        some ((result.set pos (closeRow endF curF now existing)) ++
              [mkOpen effF endF curF now newRow])
      else
        some result

/-- The `for new_row in new_data` loop. -/
def applyLoop (keyFields : List String) (effF endF curF : String) (now : Value)
    (idx : List (List Value × Nat)) :
    List Record → List Record → Option (List Record)
  | result, [] => some result
  | result, newRow :: rest =>
    match scdStep keyFields effF endF curF now idx result newRow with
    | none => none
    | some result' => applyLoop keyFields effF endF curF now idx result' rest

/-- `SCDHandler.apply_scd_type2`: index the current versions of
`current_data`, then fold the snapshot over `result = current_data.copy()`.
`none` models the propagated `KeyError` when a key field is missing. -/
def apply_scd_type2 (current_data new_data : List Record)
    (keyFields : List String) (effF endF curF : String) (now : Value) :
    Option (List Record) :=
  match buildIndexFrom keyFields curF 0 current_data with
  | none => none
  | some idx => applyLoop keyFields effF endF curF now idx current_data new_data

/-- The default SCD field names of `apply_scd_type2`. -/
def effD : String := "effective_date"

/-- Default end-date field name. -/
def endD : String := "end_date"

/-- Default current-flag field name. -/
def curD : String := "is_current"

/-- `apply_scd_type2` with its default field names. -/
def applySCD (current_data new_data : List Record) (keyFields : List String)
    (now : Value) : Option (List Record) :=
  apply_scd_type2 current_data new_data keyFields effD endD curD now

end SCD

section RecordLemmas

theorem Record.get_nil (f : String) : Record.get [] f = none := rfl

theorem Record.ne_nil_of_get {r : Record} {f : String} {v : Value}
    (h : Record.get r f = some v) : r ≠ [] := by
  intro hnil; rw [hnil] at h; exact Option.noConfusion h

theorem Record.get_none_of_any_false {r : Record} {f : String}
    (h : r.any (fun p => p.1 == f) = false) : Record.get r f = none := by
  induction r with
  | nil => rfl
  | cons p rs ih =>
    simp only [List.any_cons, Bool.or_eq_false_iff] at h
    simp only [Record.get, List.find?, h.1]
    exact ih h.2

theorem Record.get_map_replace_self {r : Record} {f : String} {v : Value}
    (h : r.any (fun p => p.1 == f) = true) :
    Record.get (r.map (fun p => if p.1 == f then (f, v) else p)) f = some v := by
  induction r with
  | nil => cases h
  | cons p rs ih =>
    cases hpf : (p.1 == f) with
    | false =>
      have hrs : rs.any (fun p => p.1 == f) = true := by
        simpa [List.any_cons, hpf] using h
      simpa [Record.get, List.find?, hpf, -List.find?_map] using ih hrs
    | true =>
      simp [Record.get, List.find?, hpf, -List.find?_map]

theorem Record.get_map_replace_ne {r : Record} {f g : String} {v : Value}
    (h : g ≠ f) :
    Record.get (r.map (fun p => if p.1 == f then (f, v) else p)) g =
      Record.get r g := by
  induction r with
  | nil => rfl
  | cons p rs ih =>
    cases hpf : (p.1 == f) with
    | false =>
      cases hpg : (p.1 == g) <;>
        simpa [Record.get, List.find?, hpf, hpg, -List.find?_map] using ih
    | true =>
      have hp : p.1 = f := by simpa using hpf
      have hfg : (f == g) = false := by simpa using (Ne.symm h)
      have hpg : (p.1 == g) = false := by rw [hp]; exact hfg
      simpa [Record.get, List.find?, hpf, hpg, hfg, -List.find?_map] using ih

theorem Record.get_append_single_ne {r : Record} {f g : String} {v : Value}
    (h : g ≠ f) : Record.get (r ++ [(f, v)]) g = Record.get r g := by
  induction r with
  | nil =>
    have hfg : (f == g) = false := by simpa using (Ne.symm h)
    simp [Record.get, List.find?, hfg]
  | cons p rs ih =>
    cases hpg : (p.1 == g) <;>
      simpa [Record.get, List.find?, hpg, -List.find?_map] using ih

theorem Record.get_append_single_self {r : Record} {f : String} {v : Value}
    (h : Record.get r f = none) : Record.get (r ++ [(f, v)]) f = some v := by
  induction r with
  | nil => simp [Record.get, List.find?]
  | cons p rs ih =>
    cases hpf : (p.1 == f) with
    | false =>
      have hrs : Record.get rs f = none := by
        simpa [Record.get, List.find?, hpf] using h
      simpa [Record.get, List.find?, hpf, -List.find?_map] using ih hrs
    | true =>
      exfalso
      simp [Record.get, List.find?, hpf] at h

theorem Record.get_set_self (r : Record) (f : String) (v : Value) :
    Record.get (Record.set r f v) f = some v := by
  unfold Record.set
  by_cases hany : r.any (fun p => p.1 == f) = true
  · rw [if_pos hany]; exact Record.get_map_replace_self hany
  · rw [if_neg hany]
    exact Record.get_append_single_self
      (Record.get_none_of_any_false (Bool.eq_false_iff.mpr hany))

theorem Record.get_set_ne {r : Record} {f g : String} (v : Value)
    (h : g ≠ f) : Record.get (Record.set r f v) g = Record.get r g := by
  unfold Record.set
  by_cases hany : r.any (fun p => p.1 == f) = true
  · rw [if_pos hany]; exact Record.get_map_replace_ne h
  · rw [if_neg hany]; exact Record.get_append_single_ne h

end RecordLemmas

section OpenCloseLemmas

variable {effF endF curF : String} {now : Value}

theorem mkOpen_get_cur (s : Record) :
    Record.get (mkOpen effF endF curF now s) curF = some (.vbool true) :=
  Record.get_set_self _ _ _

theorem mkOpen_get_end (s : Record) (h : endF ≠ curF) :
    Record.get (mkOpen effF endF curF now s) endF = some .vnone := by
  unfold mkOpen
  rw [Record.get_set_ne _ h]
  exact Record.get_set_self _ _ _

theorem mkOpen_get_eff (s : Record) (h1 : effF ≠ endF) (h2 : effF ≠ curF) :
    Record.get (mkOpen effF endF curF now s) effF = some now := by
  unfold mkOpen
  rw [Record.get_set_ne _ h2, Record.get_set_ne _ h1]
  exact Record.get_set_self _ _ _

theorem mkOpen_get_other (s : Record) {g : String}
    (h1 : g ≠ effF) (h2 : g ≠ endF) (h3 : g ≠ curF) :
    Record.get (mkOpen effF endF curF now s) g = Record.get s g := by
  unfold mkOpen
  rw [Record.get_set_ne _ h3, Record.get_set_ne _ h2, Record.get_set_ne _ h1]

theorem mkOpen_ne_nil (s : Record) : mkOpen effF endF curF now s ≠ [] :=
  Record.ne_nil_of_get (mkOpen_get_cur s)

theorem isCurrentRow_mkOpen (s : Record) :
    isCurrentRow curF (mkOpen effF endF curF now s) = true := by
  simp [isCurrentRow, Record.getD, mkOpen_get_cur, Value.truthy]

theorem closeRow_get_cur (r : Record) :
    Record.get (closeRow endF curF now r) curF = some (.vbool false) :=
  Record.get_set_self _ _ _

theorem closeRow_get_end (r : Record) (h : endF ≠ curF) :
    Record.get (closeRow endF curF now r) endF = some now := by
  unfold closeRow
  rw [Record.get_set_ne _ h]
  exact Record.get_set_self _ _ _

theorem closeRow_get_other (r : Record) {g : String}
    (h2 : g ≠ endF) (h3 : g ≠ curF) :
    Record.get (closeRow endF curF now r) g = Record.get r g := by
  unfold closeRow
  rw [Record.get_set_ne _ h3, Record.get_set_ne _ h2]

theorem isCurrentRow_closeRow (r : Record) :
    isCurrentRow curF (closeRow endF curF now r) = false := by
  simp [isCurrentRow, Record.getD, closeRow_get_cur, Value.truthy]

/-- Key-field disjointness from the three SCD metadata fields. -/
def KeysDisj (keyFields : List String) (effF endF curF : String) : Prop :=
  ∀ k ∈ keyFields, k ≠ effF ∧ k ≠ endF ∧ k ≠ curF

theorem rowKey_mkOpen {keyFields : List String} (s : Record)
    (hdisj : KeysDisj keyFields effF endF curF) :
    rowKey keyFields (mkOpen effF endF curF now s) = rowKey keyFields s := by
  induction keyFields with
  | nil => rfl
  | cons k ks ih =>
    obtain ⟨h1, h2, h3⟩ := hdisj k (List.mem_cons_self _ _)
    have hks : KeysDisj ks effF endF curF := fun k' hk' =>
      hdisj k' (List.mem_cons_of_mem _ hk')
    simp only [rowKey, mkOpen_get_other s h1 h2 h3, ih hks]

theorem rowKey_closeRow {keyFields : List String} (r : Record)
    (hdisj : KeysDisj keyFields effF endF curF) :
    rowKey keyFields (closeRow endF curF now r) = rowKey keyFields r := by
  induction keyFields with
  | nil => rfl
  | cons k ks ih =>
    obtain ⟨_, h2, h3⟩ := hdisj k (List.mem_cons_self _ _)
    have hks : KeysDisj ks effF endF curF := fun k' hk' =>
      hdisj k' (List.mem_cons_of_mem _ hk')
    simp only [rowKey, closeRow_get_other r h2 h3, ih hks]

theorem changedB_mkOpen_self (s : Record) :
    changedB effF endF curF s (mkOpen effF endF curF now s) = false := by
  unfold changedB
  rw [List.any_eq_false]
  intro p _
  by_cases he : p.1 = effF
  · simp [he]
  · by_cases hn : p.1 = endF
    · simp [hn]
    · by_cases hc : p.1 = curF
      · simp [hc]
      · have : Record.getD (mkOpen effF endF curF now s) p.1 .vnone =
            Record.getD s p.1 .vnone := by
          unfold Record.getD
          rw [mkOpen_get_other s he hn hc]
        simp [he, hn, hc, this]

end OpenCloseLemmas

section IndexLemmas

variable {keyFields : List String} {curF : String}

/-- A row is the kind the dict comprehension indexes under key `k`:
current (truthy flag, defaulting to true) with key tuple `k`. -/
def rowMatches (keyFields : List String) (curF : String) (k : List Value)
    (r : Record) : Bool :=
  isCurrentRow curF r && (rowKey keyFields r == some k)

/-- Position (within the given list) of the last current row with key tuple
`k` — the row object `current_index[key]` holds, since later comprehension
entries overwrite earlier ones. -/
def lastCurPos (keyFields : List String) (curF : String) (k : List Value) :
    List Record → Option Nat
  | [] => none
  | r :: rs =>
    match lastCurPos keyFields curF k rs with
    | some j => some (j + 1)
    | none => if rowMatches keyFields curF k r then some 0 else none

theorem buildIndexFrom_cons_false {r : Record} {rs : List Record} {i : Nat}
    (h : isCurrentRow curF r = false) :
    buildIndexFrom keyFields curF i (r :: rs) =
      buildIndexFrom keyFields curF (i + 1) rs := by
  simp [buildIndexFrom, h]

theorem buildIndexFrom_cons_true {r : Record} {rs : List Record} {i : Nat}
    (h : isCurrentRow curF r = true) :
    buildIndexFrom keyFields curF i (r :: rs) =
      match rowKey keyFields r with
      | none => none
      | some k => (buildIndexFrom keyFields curF (i + 1) rs).map ((k, i) :: ·) := by
  simp [buildIndexFrom, h]

theorem lastCurPos_cons {r : Record} {rs : List Record} {k : List Value} :
    lastCurPos keyFields curF k (r :: rs) =
      match lastCurPos keyFields curF k rs with
      | some j => some (j + 1)
      | none => if rowMatches keyFields curF k r then some 0 else none := rfl

theorem idxLookup_buildIndexFrom {rows : List Record} :
    ∀ {i : Nat} {idx : List (List Value × Nat)},
      buildIndexFrom keyFields curF i rows = some idx →
      ∀ k, idxLookup idx k =
        (lastCurPos keyFields curF k rows).map (fun j => i + j) := by
  induction rows with
  | nil =>
    intro i idx h k
    simp only [buildIndexFrom, Option.some_inj] at h
    subst h
    rfl
  | cons r rs ih =>
    intro i idx h k
    cases hcur : isCurrentRow curF r with
    | false =>
      rw [buildIndexFrom_cons_false hcur] at h
      have hih := ih h k
      have hm : rowMatches keyFields curF k r = false := by
        simp [rowMatches, hcur]
      rw [lastCurPos_cons]
      cases hl : lastCurPos keyFields curF k rs with
      | none =>
        rw [hl] at hih
        simp [hih, hm]
      | some j =>
        rw [hl] at hih
        simp only [Option.map_some'] at hih ⊢
        rw [hih]
        show some (i + 1 + j) = some (i + (j + 1))
        exact congrArg some (by omega)
    | true =>
      rw [buildIndexFrom_cons_true hcur] at h
      cases hkey : rowKey keyFields r with
      | none => rw [hkey] at h; exact Option.noConfusion h
      | some k0 =>
        rw [hkey] at h
        cases hrec : buildIndexFrom keyFields curF (i + 1) rs with
        | none => rw [hrec] at h; exact Option.noConfusion h
        | some idx' =>
          rw [hrec] at h
          simp only [Option.map_some', Option.some_inj] at h
          subst h
          have hih := ih hrec k
          rw [lastCurPos_cons]
          simp only [idxLookup, hih]
          cases hl : lastCurPos keyFields curF k rs with
          | some j =>
            show some (i + 1 + j) = some (i + (j + 1))
            exact congrArg some (by omega)
          | none =>
            simp only [Option.map_none']
            have hmatch : rowMatches keyFields curF k r = (k0 == k) := by
              simp [rowMatches, hcur, hkey]
            rw [hmatch]
            by_cases hkk : k0 = k
            · subst hkk
              simp
            · have h1 : (k0 == k) = false := by simp [hkk]
              simp [h1, hkk]

theorem lastCurPos_get {k : List Value} {l : List Record} :
    ∀ {p : Nat}, lastCurPos keyFields curF k l = some p →
      ∃ r, l[p]? = some r ∧ rowMatches keyFields curF k r = true := by
  induction l with
  | nil => intro p h; exact Option.noConfusion h
  | cons r rs ih =>
    intro p h
    rw [lastCurPos_cons] at h
    cases hl : lastCurPos keyFields curF k rs with
    | some j =>
      rw [hl] at h
      cases h
      obtain ⟨r', hr', hm⟩ := ih hl
      exact ⟨r', by simpa using hr', hm⟩
    | none =>
      rw [hl] at h
      by_cases hm : rowMatches keyFields curF k r = true
      · rw [if_pos hm] at h
        cases h
        exact ⟨r, by simp, hm⟩
      · rw [if_neg hm] at h
        exact Option.noConfusion h

theorem lastCurPos_none_all {k : List Value} {l : List Record}
    (h : lastCurPos keyFields curF k l = none) :
    ∀ r ∈ l, rowMatches keyFields curF k r = false := by
  induction l with
  | nil => intro r hr; cases hr
  | cons r rs ih =>
    intro r' hr'
    rw [lastCurPos_cons] at h
    cases hl : lastCurPos keyFields curF k rs with
    | some j => rw [hl] at h; exact Option.noConfusion h
    | none =>
      rw [hl] at h
      cases hr' with
      | head =>
        by_cases hm : rowMatches keyFields curF k r = true
        · rw [if_pos hm] at h; exact Option.noConfusion h
        · exact Bool.eq_false_iff.mpr hm
      | tail _ htail => exact ih hl r' htail

theorem lastCurPos_none_of_all {k : List Value} {l : List Record}
    (h : ∀ r ∈ l, rowMatches keyFields curF k r = false) :
    lastCurPos keyFields curF k l = none := by
  induction l with
  | nil => rfl
  | cons r rs ih =>
    have hrs := ih (fun r' hr' => h r' (List.mem_cons_of_mem _ hr'))
    simp [lastCurPos, hrs, h r (List.mem_cons_self _ _)]

theorem lastCurPos_last {k : List Value} {l : List Record} :
    ∀ {p : Nat}, lastCurPos keyFields curF k l = some p →
      ∀ q rr, l[q]? = some rr → p < q →
        rowMatches keyFields curF k rr = false := by
  induction l with
  | nil => intro p h; exact Option.noConfusion h
  | cons r rs ih =>
    intro p h q rr hq hpq
    rw [lastCurPos_cons] at h
    cases hl : lastCurPos keyFields curF k rs with
    | some j =>
      rw [hl] at h
      cases h
      cases q with
      | zero => omega
      | succ q' =>
        exact ih hl q' rr (by simpa using hq) (by omega)
    | none =>
      rw [hl] at h
      by_cases hm : rowMatches keyFields curF k r = true
      · rw [if_pos hm] at h
        cases h
        cases q with
        | zero => omega
        | succ q' =>
          have hrr : rr ∈ rs := List.getElem?_mem (by simpa using hq)
          exact lastCurPos_none_all hl rr hrr
      · rw [if_neg hm] at h
        exact Option.noConfusion h

theorem lastCurPos_append_match {k : List Value} {l : List Record}
    {x : Record} (hx : rowMatches keyFields curF k x = true) :
    lastCurPos keyFields curF k (l ++ [x]) = some l.length := by
  induction l with
  | nil => simp [lastCurPos_cons, lastCurPos, hx]
  | cons r rs ih =>
    rw [List.cons_append, lastCurPos_cons, ih]
    simp

theorem lastCurPos_append_nomatch {k : List Value} {l : List Record}
    {x : Record} (hx : rowMatches keyFields curF k x = false) :
    lastCurPos keyFields curF k (l ++ [x]) = lastCurPos keyFields curF k l := by
  induction l with
  | nil => simp [lastCurPos_cons, lastCurPos, hx]
  | cons r rs ih =>
    rw [List.cons_append, lastCurPos_cons, ih, lastCurPos_cons]

theorem lastCurPos_set_nomatch {k : List Value} {l : List Record} :
    ∀ {p : Nat} {old new : Record}, l[p]? = some old →
      rowMatches keyFields curF k old = false →
      rowMatches keyFields curF k new = false →
      lastCurPos keyFields curF k (l.set p new) =
        lastCurPos keyFields curF k l := by
  induction l with
  | nil => intro p old new h; exact Option.noConfusion h
  | cons r rs ih =>
    intro p old new hget h1 h2
    cases p with
    | zero =>
      have hr : r = old := by simpa using hget
      subst hr
      rw [List.set_cons_zero, lastCurPos_cons, lastCurPos_cons]
      cases lastCurPos keyFields curF k rs with
      | some j => rfl
      | none => simp [h1, h2]
    | succ q =>
      rw [List.set_cons_succ, lastCurPos_cons,
        ih (by simpa using hget) h1 h2, lastCurPos_cons]

theorem idxLookup_mem {idx : List (List Value × Nat)} {k : List Value} :
    ∀ {p : Nat}, idxLookup idx k = some p → (k, p) ∈ idx := by
  induction idx with
  | nil => intro p h; exact Option.noConfusion h
  | cons kp rest ih =>
    intro p h
    simp only [idxLookup] at h
    cases hl : idxLookup rest k with
    | some q =>
      rw [hl] at h
      cases h
      exact List.mem_cons_of_mem _ (ih hl)
    | none =>
      rw [hl] at h
      by_cases hkk : kp.1 = k
      · rw [if_pos hkk] at h
        cases h
        cases kp
        simp_all
      · rw [if_neg hkk] at h
        exact Option.noConfusion h

theorem buildIndexFrom_mem {rows : List Record} :
    ∀ {i : Nat} {idx : List (List Value × Nat)},
      buildIndexFrom keyFields curF i rows = some idx →
      ∀ kp ∈ idx, ∃ j r, kp.2 = i + j ∧ rows[j]? = some r ∧
        isCurrentRow curF r = true ∧ rowKey keyFields r = some kp.1 := by
  induction rows with
  | nil =>
    intro i idx h kp hkp
    simp only [buildIndexFrom, Option.some_inj] at h
    subst h
    cases hkp
  | cons r rs ih =>
    intro i idx h kp hkp
    cases hcur : isCurrentRow curF r with
    | false =>
      rw [buildIndexFrom_cons_false hcur] at h
      obtain ⟨j, r', hj, hr', hcur', hkey'⟩ := ih h kp hkp
      exact ⟨j + 1, r', by omega, by simpa using hr', hcur', hkey'⟩
    | true =>
      rw [buildIndexFrom_cons_true hcur] at h
      cases hkey : rowKey keyFields r with
      | none => rw [hkey] at h; exact Option.noConfusion h
      | some k0 =>
        rw [hkey] at h
        cases hrec : buildIndexFrom keyFields curF (i + 1) rs with
        | none => rw [hrec] at h; exact Option.noConfusion h
        | some idx' =>
          rw [hrec] at h
          simp only [Option.map_some', Option.some_inj] at h
          subst h
          cases hkp with
          | head =>
            exact ⟨0, r, by omega, by simp, hcur, hkey⟩
          | tail _ htail =>
            obtain ⟨j, r', hj, hr', hcur', hkey'⟩ := ih hrec kp htail
            exact ⟨j + 1, r', by omega, by simpa using hr', hcur', hkey'⟩

theorem buildIndexFrom_isSome {rows : List Record}
    (h : ∀ r ∈ rows, isCurrentRow curF r = true →
      (rowKey keyFields r).isSome) :
    ∀ i, (buildIndexFrom keyFields curF i rows).isSome := by
  induction rows with
  | nil => intro i; simp [buildIndexFrom]
  | cons r rs ih =>
    intro i
    have hrs := ih (fun r' hr' => h r' (List.mem_cons_of_mem _ hr'))
    cases hcur : isCurrentRow curF r with
    | false =>
      rw [buildIndexFrom_cons_false hcur]
      exact hrs (i + 1)
    | true =>
      rw [buildIndexFrom_cons_true hcur]
      have hks := h r (List.mem_cons_self _ _) hcur
      cases hkey : rowKey keyFields r with
      | none => rw [hkey] at hks; cases hks
      | some k0 =>
        cases hrec : buildIndexFrom keyFields curF (i + 1) rs with
        | none =>
          have hbad := hrs (i + 1)
          rw [hrec] at hbad
          cases hbad
        | some idx' => simp [hrec]

theorem buildIndexFrom_truthyKeyed {rows : List Record} :
    ∀ {i : Nat} {idx : List (List Value × Nat)},
      buildIndexFrom keyFields curF i rows = some idx →
      ∀ r ∈ rows, isCurrentRow curF r = true → (rowKey keyFields r).isSome := by
  induction rows with
  | nil => intro i idx _ r hr; cases hr
  | cons r rs ih =>
    intro i idx h r' hr' hcur'
    cases hcur : isCurrentRow curF r with
    | false =>
      rw [buildIndexFrom_cons_false hcur] at h
      cases hr' with
      | head => rw [hcur'] at hcur; cases hcur
      | tail _ htail => exact ih h r' htail hcur'
    | true =>
      rw [buildIndexFrom_cons_true hcur] at h
      cases hkey : rowKey keyFields r with
      | none => rw [hkey] at h; exact Option.noConfusion h
      | some k0 =>
        rw [hkey] at h
        cases hrec : buildIndexFrom keyFields curF (i + 1) rs with
        | none => rw [hrec] at h; exact Option.noConfusion h
        | some idx' =>
          cases hr' with
          | head => simp [hkey]
          | tail _ htail => exact ih hrec r' htail hcur'

end IndexLemmas

section SCDHelpers

/-- A missing key field makes the key tuple raise (`new_row[k]` is a
`KeyError`). -/
theorem rowKey_none_of_missing {kf : List String} {r : Record} {k : String}
    (hk : k ∈ kf) (hmiss : Record.get r k = none) : rowKey kf r = none := by
  induction kf with
  | nil => cases hk
  | cons k' ks ih =>
    cases hk with
    | head => simp [rowKey, hmiss]
    | tail _ htail =>
      simp only [rowKey]
      cases hget : Record.get r k' with
      | none => rfl
      | some v => simp [ih htail]

/-- A snapshot record whose key tuple raises aborts the whole loop,
whatever happened before it. -/
theorem applyLoop_none_of_mem {kf : List String} {effF endF curF : String}
    {now : Value} {idx : List (List Value × Nat)} {newData : List Record}
    {r : Record} (hr : r ∈ newData) (hkey : rowKey kf r = none) :
    ∀ result, applyLoop kf effF endF curF now idx result newData = none := by
  induction newData with
  | nil => cases hr
  | cons s rest ih =>
    intro result
    cases hr with
    | head =>
      simp [applyLoop, scdStep, hkey]
    | tail _ htail =>
      simp only [applyLoop]
      cases hstep : scdStep kf effF endF curF now idx result s with
      | none => rfl
      | some result' => exact ih htail result'

end SCDHelpers

section ListHelpers

theorem getElem?_append_lt {α : Type} {l₁ l₂ : List α} {n : Nat}
    (h : n < l₁.length) : (l₁ ++ l₂)[n]? = l₁[n]? := by
  rw [List.getElem?_append, if_pos h]

theorem length_lt_of_getElem? {α : Type} {l : List α} {n : Nat} {a : α}
    (h : l[n]? = some a) : n < l.length :=
  (List.getElem?_eq_some.mp h).1

end ListHelpers

section StepCharacterization

variable {keyFields : List String} {effF endF curF : String} {now : Value}
variable {idx : List (List Value × Nat)}

/-- Exhaustive description of one loop iteration: a fresh key (or an
empty indexed dict) appends a new open version; a changed current version is
closed in place and a new open version appended; an unchanged one is a no-op. -/
theorem scdStep_cases {result result' : List Record} {s : Record}
    {k : List Value} (hk : rowKey keyFields s = some k)
    (hstep : scdStep keyFields effF endF curF now idx result s = some result') :
    (idxLookup idx k = none ∧
      result' = result ++ [mkOpen effF endF curF now s]) ∨
    (∃ pos, idxLookup idx k = some pos ∧
      ((result[pos]?).getD []).isEmpty = true ∧
      result' = result ++ [mkOpen effF endF curF now s]) ∨
    (∃ pos ex, idxLookup idx k = some pos ∧ result[pos]? = some ex ∧
      ex.isEmpty = false ∧ changedB effF endF curF s ex = true ∧
      result' = (result.set pos (closeRow endF curF now ex)) ++
        [mkOpen effF endF curF now s]) ∨
    (∃ pos ex, idxLookup idx k = some pos ∧ result[pos]? = some ex ∧
      ex.isEmpty = false ∧ changedB effF endF curF s ex = false ∧
      result' = result) := by
  simp only [scdStep, hk] at hstep
  cases hlook : idxLookup idx k with
  | none =>
    simp only [hlook, Option.some_inj] at hstep
    exact Or.inl ⟨rfl, hstep.symm⟩
  | some pos =>
    simp only [hlook] at hstep
    split at hstep
    · -- `if not existing` taken because the indexed dict is empty
      rename_i hemp
      simp only [Option.some_inj] at hstep
      exact Or.inr (Or.inl ⟨pos, rfl, hemp, hstep.symm⟩)
    · rename_i hemp
      have hemp' : ((result[pos]?).getD []).isEmpty = false :=
        Bool.eq_false_iff.mpr hemp
      have hex : ∃ ex, result[pos]? = some ex := by
        cases hval : result[pos]? with
        | none => rw [hval] at hemp'; simp at hemp'
        | some ex => exact ⟨ex, rfl⟩
      obtain ⟨ex, hval⟩ := hex
      rw [hval] at hstep hemp'
      simp only [Option.getD_some] at hstep hemp'
      split at hstep
      · rename_i hchg
        simp only [Option.some_inj] at hstep
        exact Or.inr (Or.inr (Or.inl ⟨pos, ex, rfl, hval, hemp', hchg, hstep.symm⟩))
      · rename_i hchg
        have hchg' : changedB effF endF curF s ex = false :=
          Bool.eq_false_iff.mpr hchg
        simp only [Option.some_inj] at hstep
        exact Or.inr (Or.inr (Or.inr ⟨pos, ex, rfl, hval, hemp', hchg', hstep.symm⟩))

/-- A successful iteration entails the key tuple of its record exists. -/
theorem scdStep_key_isSome {result result' : List Record} {s : Record}
    (hstep : scdStep keyFields effF endF curF now idx result s = some result') :
    ∃ k, rowKey keyFields s = some k := by
  cases hk : rowKey keyFields s with
  | none => simp [scdStep, hk] at hstep
  | some k => exact ⟨k, rfl⟩

end StepCharacterization

section LoopInvariants

variable {keyFields : List String} {effF endF curF : String} {now : Value}
variable {idx : List (List Value × Nat)}

/-- The positions stored in the stale index still hold rows with the key
they were indexed under (closing a version keeps its key fields). -/
def IdxCoh (keyFields : List String) (idx : List (List Value × Nat))
    (result : List Record) : Prop :=
  ∀ kp ∈ idx, ∃ r, result[kp.2]? = some r ∧ rowKey keyFields r = some kp.1

/-- The stale index still answers key `k` with the position of the last
current row of key `k` in the evolving result. -/
def StaleOK (keyFields : List String) (curF : String)
    (idx : List (List Value × Nat)) (k : List Value)
    (result : List Record) : Prop :=
  idxLookup idx k = lastCurPos keyFields curF k result

/-- Re-applying snapshot record `s` to `result` would be a no-op: the row
the (fresh) index designates for `s`'s key is non-empty and compares
unchanged. -/
def NoopFor (keyFields : List String) (effF endF curF : String)
    (s : Record) (result : List Record) : Prop :=
  ∃ k p r, rowKey keyFields s = some k ∧
    lastCurPos keyFields curF k result = some p ∧
    result[p]? = some r ∧ r.isEmpty = false ∧
    changedB effF endF curF s r = false

/-- Every current row of the stale-index universe keeps a key. -/
def TruthyKeyed (keyFields : List String) (curF : String)
    (result : List Record) : Prop :=
  ∀ r ∈ result, isCurrentRow curF r = true → (rowKey keyFields r).isSome

theorem scdStep_preserves_other
    (hdisj : KeysDisj keyFields effF endF curF)
    {result result' : List Record} {s : Record} {k' : List Value}
    (hk' : rowKey keyFields s = some k')
    (hstep : scdStep keyFields effF endF curF now idx result s = some result')
    (hcoh : IdxCoh keyFields idx result)
    {k : List Value} (hne : k ≠ k') :
    lastCurPos keyFields curF k result' = lastCurPos keyFields curF k result ∧
    (∀ (p : Nat) (r : Record), result[p]? = some r → rowKey keyFields r = some k →
      result'[p]? = some r) := by
  have hnew : rowMatches keyFields curF k (mkOpen effF endF curF now s) = false := by
    unfold rowMatches
    rw [rowKey_mkOpen s hdisj, hk']
    have hkk : (some k' == some k) = false := by simp [Ne.symm hne]
    simp [hkk]
  rcases scdStep_cases hk' hstep with
    ⟨_, hres⟩ | ⟨pos, _, _, hres⟩ |
    ⟨pos, ex, hlook, hval, _, _, hres⟩ | ⟨_, _, _, _, _, _, hres⟩
  · subst hres
    refine ⟨lastCurPos_append_nomatch hnew, ?_⟩
    intro p r hp _
    rw [getElem?_append_lt (length_lt_of_getElem? hp)]
    exact hp
  · subst hres
    refine ⟨lastCurPos_append_nomatch hnew, ?_⟩
    intro p r hp _
    rw [getElem?_append_lt (length_lt_of_getElem? hp)]
    exact hp
  · -- close-and-open: the closed position holds a row of key `k'` ≠ `k`
    obtain ⟨ex2, hval2, hkey2⟩ := hcoh (k', pos) (idxLookup_mem hlook)
    simp only at hval2 hkey2
    have hexeq : ex2 = ex := by
      rw [hval] at hval2; exact (Option.some_inj.mp hval2).symm
    have hkex : rowKey keyFields ex = some k' := by
      rw [← hexeq]; exact hkey2
    have hkk : (some k' == some k) = false := by simp [Ne.symm hne]
    have hold : rowMatches keyFields curF k ex = false := by
      unfold rowMatches
      rw [hkex]
      simp [hkk]
    have hclosed : rowMatches keyFields curF k (closeRow endF curF now ex) = false := by
      unfold rowMatches
      rw [rowKey_closeRow ex hdisj, hkex]
      simp [hkk]
    subst hres
    constructor
    · rw [lastCurPos_append_nomatch hnew,
        lastCurPos_set_nomatch hval hold hclosed]
    · intro p r hp hkr
      have hppos : p ≠ pos := by
        intro hcontra
        rw [hcontra, hval] at hp
        have hrex : r = ex := Option.some_inj.mp hp.symm
        rw [hrex, hkex] at hkr
        exact hne (Option.some_inj.mp hkr.symm)
      have hlen : p < (result.set pos (closeRow endF curF now ex)).length := by
        rw [List.length_set]
        exact length_lt_of_getElem? hp
      rw [getElem?_append_lt hlen, List.getElem?_set_ne (Ne.symm hppos)]
      exact hp
  · subst hres
    exact ⟨rfl, fun p r hp _ => hp⟩

theorem scdStep_preserves_IdxCoh
    (hdisj : KeysDisj keyFields effF endF curF)
    {result result' : List Record} {s : Record} {k' : List Value}
    (hk' : rowKey keyFields s = some k')
    (hstep : scdStep keyFields effF endF curF now idx result s = some result')
    (hcoh : IdxCoh keyFields idx result) :
    IdxCoh keyFields idx result' := by
  rcases scdStep_cases hk' hstep with
    ⟨_, hres⟩ | ⟨pos, _, _, hres⟩ |
    ⟨pos, ex, hlook, hval, _, _, hres⟩ | ⟨_, _, _, _, _, _, hres⟩
  · subst hres
    intro kp hkp
    obtain ⟨r, hr, hkey⟩ := hcoh kp hkp
    exact ⟨r, by rw [getElem?_append_lt (length_lt_of_getElem? hr)]; exact hr, hkey⟩
  · subst hres
    intro kp hkp
    obtain ⟨r, hr, hkey⟩ := hcoh kp hkp
    exact ⟨r, by rw [getElem?_append_lt (length_lt_of_getElem? hr)]; exact hr, hkey⟩
  · subst hres
    intro kp hkp
    obtain ⟨r, hr, hkey⟩ := hcoh kp hkp
    by_cases hpp : kp.2 = pos
    · -- position being closed: its key is preserved by `closeRow`
      have hrex : r = ex := by
        rw [hpp, hval] at hr
        exact (Option.some_inj.mp hr).symm
      refine ⟨closeRow endF curF now ex, ?_, ?_⟩
      · have hlen : pos < result.length := length_lt_of_getElem? hval
        have hlen2 : kp.2 < (result.set pos (closeRow endF curF now ex)).length := by
          rw [List.length_set, hpp]; exact hlen
        rw [getElem?_append_lt hlen2, hpp, List.getElem?_set_self hlen]
      · rw [rowKey_closeRow ex hdisj, ← hrex]; exact hkey
    · refine ⟨r, ?_, hkey⟩
      have hlen : kp.2 < (result.set pos (closeRow endF curF now ex)).length := by
        rw [List.length_set]; exact length_lt_of_getElem? hr
      rw [getElem?_append_lt hlen, List.getElem?_set_ne (Ne.symm hpp)]
      exact hr
  · subst hres
    exact hcoh

theorem scdStep_preserves_TruthyKeyed
    (hdisj : KeysDisj keyFields effF endF curF)
    {result result' : List Record} {s : Record} {k' : List Value}
    (hk' : rowKey keyFields s = some k')
    (hstep : scdStep keyFields effF endF curF now idx result s = some result')
    (ht : TruthyKeyed keyFields curF result) :
    TruthyKeyed keyFields curF result' := by
  have hopen : (rowKey keyFields (mkOpen effF endF curF now s)).isSome := by
    rw [rowKey_mkOpen s hdisj, hk']; rfl
  rcases scdStep_cases hk' hstep with
    ⟨_, hres⟩ | ⟨pos, _, _, hres⟩ |
    ⟨pos, ex, _, hval, _, _, hres⟩ | ⟨_, _, _, _, _, _, hres⟩
  · subst hres
    intro r hr hcur
    rcases List.mem_append.mp hr with hr | hr
    · exact ht r hr hcur
    · rw [List.mem_singleton.mp hr]; exact hopen
  · subst hres
    intro r hr hcur
    rcases List.mem_append.mp hr with hr | hr
    · exact ht r hr hcur
    · rw [List.mem_singleton.mp hr]; exact hopen
  · subst hres
    intro r hr hcur
    rcases List.mem_append.mp hr with hr | hr
    · rcases List.mem_or_eq_of_mem_set hr with hr | hr
      · exact ht r hr hcur
      · subst hr
        rw [isCurrentRow_closeRow] at hcur
        cases hcur
    · rw [List.mem_singleton.mp hr]; exact hopen
  · subst hres
    exact ht

theorem scdStep_establishes_Noop
    (hdisj : KeysDisj keyFields effF endF curF)
    {result result' : List Record} {s : Record} {k : List Value}
    (hk : rowKey keyFields s = some k)
    (hstep : scdStep keyFields effF endF curF now idx result s = some result')
    (hstale : StaleOK keyFields curF idx k result) :
    NoopFor keyFields effF endF curF s result' := by
  have hopen : rowMatches keyFields curF k (mkOpen effF endF curF now s) = true := by
    unfold rowMatches
    rw [isCurrentRow_mkOpen, rowKey_mkOpen s hdisj, hk]
    simp
  have hopenne : (mkOpen effF endF curF now s).isEmpty = false :=
    List.isEmpty_eq_false.mpr (mkOpen_ne_nil s)
  rcases scdStep_cases hk hstep with
    ⟨_, hres⟩ | ⟨pos, _, _, hres⟩ |
    ⟨pos, ex, _, hval, _, _, hres⟩ | ⟨pos, ex, hlook, hval, hne, hchg, hres⟩
  · subst hres
    exact ⟨k, result.length, mkOpen effF endF curF now s, hk,
      lastCurPos_append_match hopen, List.getElem?_concat_length _ _,
      hopenne, changedB_mkOpen_self s⟩
  · subst hres
    exact ⟨k, result.length, mkOpen effF endF curF now s, hk,
      lastCurPos_append_match hopen, List.getElem?_concat_length _ _,
      hopenne, changedB_mkOpen_self s⟩
  · subst hres
    refine ⟨k, (result.set pos (closeRow endF curF now ex)).length,
      mkOpen effF endF curF now s, hk, lastCurPos_append_match hopen,
      List.getElem?_concat_length _ _, hopenne, changedB_mkOpen_self s⟩
  · subst hres
    exact ⟨k, pos, ex, hk, by rw [← hstale, hlook], hval, hne, hchg⟩

/-- Master induction over one application's loop: afterwards every snapshot
record would be a no-op, and no-op-ness of records whose keys the snapshot
does not touch is carried through. -/
theorem applyLoop_noop_invariant
    (hdisj : KeysDisj keyFields effF endF curF) :
    ∀ {S result result' : List Record},
      applyLoop keyFields effF endF curF now idx result S = some result' →
      S.Pairwise (fun a b => rowKey keyFields a ≠ rowKey keyFields b) →
      IdxCoh keyFields idx result →
      (∀ s ∈ S, ∀ k, rowKey keyFields s = some k →
        StaleOK keyFields curF idx k result) →
      (∀ s ∈ S, NoopFor keyFields effF endF curF s result') ∧
      (∀ s₀ k₀, rowKey keyFields s₀ = some k₀ →
        (∀ s ∈ S, rowKey keyFields s ≠ some k₀) →
        NoopFor keyFields effF endF curF s₀ result →
        NoopFor keyFields effF endF curF s₀ result') := by
  intro S
  induction S with
  | nil =>
    intro result result' hloop _ _ _
    simp only [applyLoop, Option.some_inj] at hloop
    subst hloop
    exact ⟨fun s hs => absurd hs (List.not_mem_nil s), fun _ _ _ _ h => h⟩
  | cons s rest ih =>
    intro result result' hloop hpair hcoh hstale
    simp only [applyLoop] at hloop
    cases hstep : scdStep keyFields effF endF curF now idx result s with
    | none => rw [hstep] at hloop; exact Option.noConfusion hloop
    | some result₁ =>
      rw [hstep] at hloop
      obtain ⟨k, hk⟩ := scdStep_key_isSome hstep
      have hpairrest := (List.pairwise_cons.mp hpair).2
      have hheadne := (List.pairwise_cons.mp hpair).1
      -- the step's own record becomes a no-op
      have hself : NoopFor keyFields effF endF curF s result₁ :=
        scdStep_establishes_Noop hdisj hk hstep
          (hstale s (List.mem_cons_self _ _) k hk)
      -- invariants flow to the next state
      have hcoh₁ : IdxCoh keyFields idx result₁ :=
        scdStep_preserves_IdxCoh hdisj hk hstep hcoh
      have hstale₁ : ∀ s₂ ∈ rest, ∀ k₂, rowKey keyFields s₂ = some k₂ →
          StaleOK keyFields curF idx k₂ result₁ := by
        intro s₂ hs₂ k₂ hk₂
        have hne : k₂ ≠ k := by
          intro hcontra
          subst hcontra
          exact hheadne s₂ hs₂ (by rw [hk, hk₂])
        have hpres := scdStep_preserves_other hdisj hk hstep hcoh hne
        unfold StaleOK
        rw [hpres.1]
        exact hstale s₂ (List.mem_cons_of_mem _ hs₂) k₂ hk₂
      obtain ⟨hallrest, htransfer⟩ := ih hloop hpairrest hcoh₁ hstale₁
      -- transfer of a no-op through one step, for keys the step avoids
      have hstep_transfer : ∀ s₀ k₀, rowKey keyFields s₀ = some k₀ → k₀ ≠ k →
          NoopFor keyFields effF endF curF s₀ result →
          NoopFor keyFields effF endF curF s₀ result₁ := by
        intro s₀ k₀ hk₀ hne ⟨k₀', p, r, hk₀', hlcp, hval, hneemp, hchg⟩
        have hkeq : k₀' = k₀ := by
          rw [hk₀] at hk₀'; exact (Option.some_inj.mp hk₀').symm
        subst hkeq
        have hpres := scdStep_preserves_other hdisj hk hstep hcoh hne
        obtain ⟨rr, hrr, hmm⟩ := lastCurPos_get hlcp
        have hrreq : rr = r := by
          rw [hval] at hrr; exact (Option.some_inj.mp hrr).symm
        have hkr : rowKey keyFields r = some k₀' := by
          rw [← hrreq]
          have := (Bool.and_eq_true_iff.mp hmm).2
          simpa using this
        refine ⟨k₀', p, r, hk₀', ?_, ?_, hneemp, hchg⟩
        · rw [hpres.1]; exact hlcp
        · exact hpres.2 p r hval hkr
      constructor
      · intro s₂ hs₂
        cases hs₂ with
        | head =>
          exact htransfer s k hk
            (fun s₃ hs₃ hcontra => hheadne s₃ hs₃ (by rw [hk, hcontra]))
            hself
        | tail _ htail => exact hallrest _ htail
      · intro s₀ k₀ hk₀ havoid hnoop
        have hne : k₀ ≠ k := by
          intro hcontra
          exact havoid s (List.mem_cons_self _ _) (by rw [hk, hcontra])
        exact htransfer s₀ k₀ hk₀
          (fun s₃ hs₃ => havoid s₃ (List.mem_cons_of_mem _ hs₃))
          (hstep_transfer s₀ k₀ hk₀ hne hnoop)

/-- Running the loop over records that are all no-ops leaves the historized
set exactly as it is. -/
theorem applyLoop_noop_run {R : List Record} {idx₂ : List (List Value × Nat)}
    (hfresh : ∀ k, idxLookup idx₂ k = lastCurPos keyFields curF k R) :
    ∀ {S : List Record},
      (∀ s ∈ S, NoopFor keyFields effF endF curF s R) →
      applyLoop keyFields effF endF curF now idx₂ R S = some R := by
  intro S
  induction S with
  | nil => intro _; rfl
  | cons s rest ih =>
    intro hall
    obtain ⟨k, p, r, hk, hlcp, hval, hneemp, hchg⟩ :=
      hall s (List.mem_cons_self _ _)
    have hstep : scdStep keyFields effF endF curF now idx₂ R s = some R := by
      simp only [scdStep, hk, hfresh k, hlcp, hval, Option.getD_some]
      rw [hneemp, hchg]
      simp
    simp only [applyLoop, hstep]
    exact ih (fun s₂ hs₂ => hall s₂ (List.mem_cons_of_mem _ hs₂))

/-- The loop keeps every current row keyed. -/
theorem applyLoop_preserves_TruthyKeyed
    (hdisj : KeysDisj keyFields effF endF curF) :
    ∀ {S result result' : List Record},
      applyLoop keyFields effF endF curF now idx result S = some result' →
      TruthyKeyed keyFields curF result → TruthyKeyed keyFields curF result' := by
  intro S
  induction S with
  | nil =>
    intro result result' hloop ht
    simp only [applyLoop, Option.some_inj] at hloop
    subst hloop
    exact ht
  | cons s rest ih =>
    intro result result' hloop ht
    simp only [applyLoop] at hloop
    cases hstep : scdStep keyFields effF endF curF now idx result s with
    | none => rw [hstep] at hloop; exact Option.noConfusion hloop
    | some result₁ =>
      rw [hstep] at hloop
      obtain ⟨k, hk⟩ := scdStep_key_isSome hstep
      exact ih hloop (scdStep_preserves_TruthyKeyed hdisj hk hstep ht)

end LoopInvariants

/-- **C3 (amended).** For snapshots with pairwise-distinct keys (and key
fields disjoint from the SCD metadata fields), the engine is idempotent:
if applying snapshot `S` to any historized set succeeds with result `R`,
re-applying the same `S` to `R` — at any later execution time — returns `R`
unchanged: no records are added and no `effective_date`/`end_date` (or any
other field) of a present record changes. -/
theorem scd_idempotent_of_distinct_keys
    (current_data S : List Record) (keyFields : List String)
    (now₁ now₂ : Value) (R : List Record)
    (hdisj : KeysDisj keyFields effD endD curD)
    (hpair : S.Pairwise (fun a b => rowKey keyFields a ≠ rowKey keyFields b))
    (h1 : applySCD current_data S keyFields now₁ = some R) :
    applySCD R S keyFields now₂ = some R := by
  unfold applySCD apply_scd_type2 at h1 ⊢
  cases hidx : buildIndexFrom keyFields curD 0 current_data with
  | none => rw [hidx] at h1; exact Option.noConfusion h1
  | some idx₁ =>
    rw [hidx] at h1
    have hzero : ∀ (o : Option Nat), o.map (fun j => 0 + j) = o := by
      intro o; cases o <;> simp
    have hstale₀ : ∀ s ∈ S, ∀ k, rowKey keyFields s = some k →
        StaleOK keyFields curD idx₁ k current_data := by
      intro s _ k _
      unfold StaleOK
      rw [idxLookup_buildIndexFrom hidx k, hzero]
    have hcoh₀ : IdxCoh keyFields idx₁ current_data := by
      intro kp hkp
      obtain ⟨j, r, hj, hr, _, hkey⟩ := buildIndexFrom_mem hidx kp hkp
      exact ⟨r, by rw [hj, Nat.zero_add]; exact hr, hkey⟩
    obtain ⟨hall, _⟩ :=
      applyLoop_noop_invariant hdisj h1 hpair hcoh₀ hstale₀
    have ht0 : TruthyKeyed keyFields curD current_data :=
      buildIndexFrom_truthyKeyed hidx
    have htR : TruthyKeyed keyFields curD R :=
      applyLoop_preserves_TruthyKeyed hdisj h1 ht0
    have hsome : (buildIndexFrom keyFields curD 0 R).isSome :=
      buildIndexFrom_isSome htR 0
    cases hidx₂ : buildIndexFrom keyFields curD 0 R with
    | none => rw [hidx₂] at hsome; cases hsome
    | some idx₂ =>
      have hfresh : ∀ k, idxLookup idx₂ k = lastCurPos keyFields curD k R := by
        intro k
        rw [idxLookup_buildIndexFrom hidx₂ k, hzero]
      exact applyLoop_noop_run hfresh hall

/-- Witness for `scd_idempotent_of_distinct_keys` at a concrete input. -/
theorem scd_idempotent_of_distinct_keys_witness :
    applySCD
        [[("id", .vint 1), ("state", .vstr "active"),
          ("effective_date", .vtime 1), ("end_date", .vnone),
          ("is_current", .vbool true)]]
        [[("id", .vint 1), ("state", .vstr "active")]] ["id"] (.vtime 2) =
      some [[("id", .vint 1), ("state", .vstr "active"),
             ("effective_date", .vtime 1), ("end_date", .vnone),
             ("is_current", .vbool true)]] :=
  scd_idempotent_of_distinct_keys []
    [[("id", .vint 1), ("state", .vstr "active")]] ["id"]
    (.vtime 1) (.vtime 2) _
    (by intro k hk; fin_cases hk; exact ⟨by decide, by decide, by decide⟩)
    (by simp)
    (by decide)

section PartitionInvariant

variable {keyFields : List String} {effF endF curF : String}

/-- The records of `R` whose key tuple is `k`, in list order. -/
def keyRows (keyFields : List String) (k : List Value) (R : List Record) :
    List Record :=
  R.filter (fun r => rowKey keyFields r == some k)

/-- A run of closed versions forming a gap-free chain; the parameter is the
validity instant at which the last version here was closed (= the
`effective_date` of the version that follows it). -/
inductive ClosedSeq (effF endF curF : String) : List Record → Nat → Prop where
  | nil : ∀ e, ClosedSeq effF endF curF [] e
  | snoc : ∀ {rs : List Record} {r : Record} {e e' : Nat},
      ClosedSeq effF endF curF rs e →
      Record.get r effF = some (.vtime e) →
      Record.get r endF = some (.vtime e') →
      Record.get r curF = some (.vbool false) →
      e < e' →
      ClosedSeq effF endF curF (rs ++ [r]) e'

/-- An open (current) version. -/
def OpenRec (endF curF : String) (r : Record) : Prop :=
  Record.get r endF = some .vnone ∧ Record.get r curF = some (.vbool true)

/-- The SCD2 shape of one key's records: either absent, or a run of closed
versions followed by exactly one open version whose `effective_date` is at
most `t`. -/
def KChain (effF endF curF : String) (t : Nat) (rows : List Record) : Prop :=
  rows = [] ∨ ∃ cls rm e, rows = cls ++ [rm] ∧
    ClosedSeq effF endF curF cls e ∧
    Record.get rm effF = some (.vtime e) ∧ e ≤ t ∧ OpenRec endF curF rm

theorem KChain_relax {t t' : Nat} {rows : List Record}
    (h : KChain effF endF curF t rows) (hle : t ≤ t') :
    KChain effF endF curF t' rows := by
  rcases h with h | ⟨cls, rm, e, hrows, hcls, heff, hle2, hopen⟩
  · exact Or.inl h
  · exact Or.inr ⟨cls, rm, e, hrows, hcls, heff, le_trans hle2 hle, hopen⟩

theorem ClosedSeq_cur {cls : List Record} {e : Nat}
    (h : ClosedSeq effF endF curF cls e) :
    ∀ r ∈ cls, Record.get r curF = some (.vbool false) := by
  induction h with
  | nil => intro r hr; cases hr
  | snoc _ _ _ hcur _ ih =>
    intro r hr
    rcases List.mem_append.mp hr with hr | hr
    · exact ih r hr
    · rw [List.mem_singleton.mp hr]; assumption

theorem ClosedSeq_end {cls : List Record} {e : Nat}
    (h : ClosedSeq effF endF curF cls e) :
    ∀ r ∈ cls, ∃ ee, Record.get r endF = some (.vtime ee) := by
  induction h with
  | nil => intro r hr; cases hr
  | snoc _ _ hend _ _ ih =>
    intro r hr
    rcases List.mem_append.mp hr with hr | hr
    · exact ih r hr
    · rw [List.mem_singleton.mp hr]; exact ⟨_, hend⟩

theorem OpenRec_isCurrent {r : Record} (h : OpenRec endF curF r) :
    isCurrentRow curF r = true := by
  simp [isCurrentRow, Record.getD, h.2, Value.truthy]

theorem OpenRec_ne_nil {r : Record} (h : OpenRec endF curF r) : r ≠ [] :=
  Record.ne_nil_of_get h.1

theorem keyRows_nil (k : List Value) : keyRows keyFields k [] = [] := rfl

theorem keyRows_append_match {k : List Value} {l : List Record} {x : Record}
    (hx : rowKey keyFields x = some k) :
    keyRows keyFields k (l ++ [x]) = keyRows keyFields k l ++ [x] := by
  unfold keyRows
  rw [List.filter_append]
  simp [hx]

theorem keyRows_append_nomatch {k : List Value} {l : List Record} {x : Record}
    (hx : rowKey keyFields x ≠ some k) :
    keyRows keyFields k (l ++ [x]) = keyRows keyFields k l := by
  unfold keyRows
  rw [List.filter_append]
  simp [hx]

theorem keyRows_eq_nil_iff {k : List Value} {l : List Record} :
    keyRows keyFields k l = [] ↔ ∀ r ∈ l, rowKey keyFields r ≠ some k := by
  unfold keyRows
  rw [List.filter_eq_nil_iff]
  constructor
  · intro h r hr
    have := h r hr
    simpa using this
  · intro h r hr
    simpa using h r hr

theorem keyRows_set_nomatch {k : List Value} {l : List Record} :
    ∀ {p : Nat} {old new : Record}, l[p]? = some old →
      rowKey keyFields old ≠ some k → rowKey keyFields new ≠ some k →
      keyRows keyFields k (l.set p new) = keyRows keyFields k l := by
  induction l with
  | nil => intro p old new h; exact Option.noConfusion h
  | cons r rs ih =>
    intro p old new hget h1 h2
    cases p with
    | zero =>
      have hr : r = old := by simpa using hget
      subst hr
      rw [List.set_cons_zero]
      unfold keyRows
      rw [List.filter_cons_of_neg (by simpa using h2),
        List.filter_cons_of_neg (by simpa using h1)]
    | succ q =>
      rw [List.set_cons_succ]
      have := ih (by simpa using hget) h1 h2
      unfold keyRows at this ⊢
      simp only [List.filter_cons, this]

/-- Overwriting the last `k`-row of `l` (in place) replaces the last element
of `keyRows k l`. -/
theorem keyRows_set_last {k : List Value} {l : List Record} :
    ∀ {p : Nat} {old new : Record}, l[p]? = some old →
      rowKey keyFields old = some k →
      (∀ q rr, l[q]? = some rr → p < q → rowKey keyFields rr ≠ some k) →
      rowKey keyFields new = some k →
      ∃ init, keyRows keyFields k l = init ++ [old] ∧
        keyRows keyFields k (l.set p new) = init ++ [new] := by
  induction l with
  | nil => intro p old new h; exact Option.noConfusion h
  | cons r rs ih =>
    intro p old new hget hold hafter hnew
    cases p with
    | zero =>
      have hr : r = old := by simpa using hget
      subst hr
      have hrs : keyRows keyFields k rs = [] := by
        rw [keyRows_eq_nil_iff]
        intro r' hr'
        obtain ⟨q, hq⟩ := List.getElem?_of_mem hr'
        exact hafter (q + 1) r' (by simpa using hq) (by omega)
      refine ⟨[], ?_, ?_⟩
      · unfold keyRows
        rw [List.filter_cons_of_pos (by simpa using hold)]
        unfold keyRows at hrs
        rw [hrs]
        rfl
      · rw [List.set_cons_zero]
        unfold keyRows
        rw [List.filter_cons_of_pos (by simpa using hnew)]
        unfold keyRows at hrs
        rw [hrs]
        rfl
    | succ q =>
      have hget' : rs[q]? = some old := by simpa using hget
      have hafter' : ∀ q' rr, rs[q']? = some rr → q < q' →
          rowKey keyFields rr ≠ some k := by
        intro q' rr hq' hlt
        exact hafter (q' + 1) rr (by simpa using hq') (by omega)
      obtain ⟨init', hrows', hset'⟩ := ih hget' hold hafter' hnew
      rw [List.set_cons_succ]
      by_cases hmr : rowKey keyFields r = some k
      · refine ⟨r :: init', ?_, ?_⟩
        · unfold keyRows
          rw [List.filter_cons_of_pos (by simpa using hmr)]
          unfold keyRows at hrows'
          rw [hrows']
          rfl
        · unfold keyRows
          rw [List.filter_cons_of_pos (by simpa using hmr)]
          unfold keyRows at hset'
          rw [hset']
          rfl
      · refine ⟨init', ?_, ?_⟩
        · unfold keyRows
          rw [List.filter_cons_of_neg (by simpa using hmr)]
          unfold keyRows at hrows'
          rw [hrows']
        · unfold keyRows
          rw [List.filter_cons_of_neg (by simpa using hmr)]
          unfold keyRows at hset'
          rw [hset']

/-- When a key has no rows at all, the index finds nothing for it. -/
theorem lastCurPos_of_keyRows_nil {k : List Value} {l : List Record}
    (h : keyRows keyFields k l = []) :
    lastCurPos keyFields curF k l = none := by
  apply lastCurPos_none_of_all
  intro r hr
  unfold rowMatches
  have := keyRows_eq_nil_iff.mp h r hr
  simp [this]

/-- For a key in SCD2 shape, the index designates exactly the open version,
which is also the last row of that key in `l`. -/
theorem lastCurPos_of_KChain {k : List Value} {l : List Record}
    {cls : List Record} {rm : Record}
    (hrows : keyRows keyFields k l = cls ++ [rm])
    (hcls : ∀ r ∈ cls, Record.get r curF = some (.vbool false))
    (hrm : isCurrentRow curF rm = true) :
    ∃ p, lastCurPos keyFields curF k l = some p ∧ l[p]? = some rm ∧
      (∀ q rr, l[q]? = some rr → p < q → rowKey keyFields rr ≠ some k) := by
  induction l generalizing cls with
  | nil =>
    exfalso
    have : ([] : List Record) = cls ++ [rm] := hrows
    cases cls <;> simp at this
  | cons r rs ih =>
    by_cases hmr : rowKey keyFields r = some k
    · have hcons : keyRows keyFields k (r :: rs) =
          r :: keyRows keyFields k rs := by
        unfold keyRows
        rw [List.filter_cons_of_pos (by simpa using hmr)]
      rw [hcons] at hrows
      cases cls with
      | nil =>
        simp only [List.nil_append, List.cons.injEq] at hrows
        obtain ⟨hrrm, hrsnil⟩ := hrows
        have hnone : lastCurPos keyFields curF k rs = none := by
          apply lastCurPos_of_keyRows_nil
          exact hrsnil
        refine ⟨0, ?_, by simp [hrrm], ?_⟩
        · rw [lastCurPos_cons, hnone]
          have hm : rowMatches keyFields curF k r = true := by
            unfold rowMatches
            rw [← hrrm] at hrm
            simp [hrm, hmr]
          rw [if_pos hm]
        · intro q rr hq hlt
          cases q with
          | zero => omega
          | succ q' =>
            have hrr : rr ∈ rs := List.getElem?_mem (by simpa using hq)
            exact keyRows_eq_nil_iff.mp hrsnil rr hrr
      | cons c cls' =>
        simp only [List.cons_append, List.cons.injEq] at hrows
        obtain ⟨hrc, hrest⟩ := hrows
        obtain ⟨p', hp', hval', hafter'⟩ :=
          ih hrest (fun r' hr' => hcls r' (List.mem_cons_of_mem _ hr'))
        refine ⟨p' + 1, ?_, by simpa using hval', ?_⟩
        · rw [lastCurPos_cons, hp']
        · intro q rr hq hlt
          cases q with
          | zero => omega
          | succ q' => exact hafter' q' rr (by simpa using hq) (by omega)
    · have hcons : keyRows keyFields k (r :: rs) = keyRows keyFields k rs := by
        unfold keyRows
        rw [List.filter_cons_of_neg (by simpa using hmr)]
      rw [hcons] at hrows
      obtain ⟨p', hp', hval', hafter'⟩ := ih hrows hcls
      refine ⟨p' + 1, ?_, by simpa using hval', ?_⟩
      · rw [lastCurPos_cons, hp']
      · intro q rr hq hlt
        cases q with
        | zero =>
          have hrr : r = rr := by simpa using hq
          rw [← hrr]
          exact hmr
        | succ q' => exact hafter' q' rr (by simpa using hq) (by omega)

/-- `KChain` with a strict horizon: the open version became effective
strictly before `t'` (the situation just before an application at `t'`). -/
def KChainS (effF endF curF : String) (t' : Nat) (rows : List Record) : Prop :=
  rows = [] ∨ ∃ cls rm e, rows = cls ++ [rm] ∧
    ClosedSeq effF endF curF cls e ∧
    Record.get rm effF = some (.vtime e) ∧ e < t' ∧ OpenRec endF curF rm

theorem KChainS_of_KChain {t t' : Nat} {rows : List Record}
    (h : KChain effF endF curF t rows) (hlt : t < t') :
    KChainS effF endF curF t' rows := by
  rcases h with h | ⟨cls, rm, e, hrows, hcls, heff, hle, hopen⟩
  · exact Or.inl h
  · exact Or.inr ⟨cls, rm, e, hrows, hcls, heff, lt_of_le_of_lt hle hlt, hopen⟩

theorem KChain_of_KChainS {t' : Nat} {rows : List Record}
    (h : KChainS effF endF curF t' rows) :
    KChain effF endF curF t' rows := by
  rcases h with h | ⟨cls, rm, e, hrows, hcls, heff, hlt, hopen⟩
  · exact Or.inl h
  · exact Or.inr ⟨cls, rm, e, hrows, hcls, heff, le_of_lt hlt, hopen⟩

/-- Inner induction for one engine application at instant `t'`: starting
from a state whose per-key chains are intact and whose untouched keys still
look exactly like they did when the stale index was built, the loop keeps
every per-key chain intact. -/
theorem applyLoop_preserves_chains
    (hdisj : KeysDisj keyFields effF endF curF)
    (hen : effF ≠ endF) (hec : effF ≠ curF) (hnc : endF ≠ curF)
    {R : List Record} {t' : Nat} {idx : List (List Value × Nat)}
    (hRS : ∀ k, KChainS effF endF curF t' (keyRows keyFields k R)) :
    ∀ {S result result' : List Record},
      applyLoop keyFields effF endF curF (.vtime t') idx result S = some result' →
      S.Pairwise (fun a b => rowKey keyFields a ≠ rowKey keyFields b) →
      (∀ r ∈ result, (rowKey keyFields r).isSome) →
      IdxCoh keyFields idx result →
      (∀ k, KChain effF endF curF t' (keyRows keyFields k result)) →
      (∀ s ∈ S, ∀ k, rowKey keyFields s = some k →
        StaleOK keyFields curF idx k result ∧
        keyRows keyFields k result = keyRows keyFields k R) →
      (∀ r ∈ result', (rowKey keyFields r).isSome) ∧
      (∀ k, KChain effF endF curF t' (keyRows keyFields k result')) := by
  intro S
  induction S with
  | nil =>
    intro result result' hloop _ hkeys _ hchains _
    simp only [applyLoop, Option.some_inj] at hloop
    subst hloop
    exact ⟨hkeys, hchains⟩
  | cons s rest ih =>
    intro result result' hloop hpair hkeys hcoh hchains hss
    simp only [applyLoop] at hloop
    cases hstep : scdStep keyFields effF endF curF (.vtime t') idx result s with
    | none => rw [hstep] at hloop; exact Option.noConfusion hloop
    | some result₁ =>
      rw [hstep] at hloop
      obtain ⟨k, hk⟩ := scdStep_key_isSome hstep
      have hpairrest := (List.pairwise_cons.mp hpair).2
      have hheadne := (List.pairwise_cons.mp hpair).1
      obtain ⟨hstale, hkeq⟩ := hss s (List.mem_cons_self _ _) k hk
      have hkopen : rowKey keyFields (mkOpen effF endF curF (.vtime t') s) =
          some k := by rw [rowKey_mkOpen s hdisj]; exact hk
      -- facts describing the state after this one step
      have hmain :
          (∀ r ∈ result₁, (rowKey keyFields r).isSome) ∧
          (∀ k₂, k₂ ≠ k →
            keyRows keyFields k₂ result₁ = keyRows keyFields k₂ result) ∧
          KChain effF endF curF t' (keyRows keyFields k result₁) := by
        have hRk := hRS k
        rw [← hkeq] at hRk
        rcases hRk with hnil | ⟨cls, rm, e, hrows, hcls, heff, helt, hopen⟩
        · -- fresh key: insert branch
          have hnone : idxLookup idx k = none := by
            rw [hstale]
            exact lastCurPos_of_keyRows_nil hnil
          rcases scdStep_cases hk hstep with
            ⟨_, hres⟩ | ⟨pos, hlook, _, hres⟩ |
            ⟨pos, ex, hlook, _, _, _, hres⟩ | ⟨pos, ex, hlook, _, _, _, hres⟩
          all_goals try (rw [hnone] at hlook; exact Option.noConfusion hlook)
          subst hres
          refine ⟨?_, ?_, ?_⟩
          · intro r hr
            rcases List.mem_append.mp hr with hr | hr
            · exact hkeys r hr
            · rw [List.mem_singleton.mp hr, hkopen]; rfl
          · intro k₂ hk₂
            exact keyRows_append_nomatch (by rw [hkopen]; simp [Ne.symm hk₂])
          · rw [keyRows_append_match hkopen, hnil]
            exact Or.inr ⟨[], _, t', rfl, ClosedSeq.nil t',
              mkOpen_get_eff s hen hec, le_refl t',
              mkOpen_get_end s hnc, mkOpen_get_cur s⟩
        · -- existing current version for this key
          obtain ⟨pos, hlcp, hval, hafter⟩ :=
            lastCurPos_of_KChain hrows (ClosedSeq_cur hcls)
              (OpenRec_isCurrent hopen)
          have hlook : idxLookup idx k = some pos := by rw [hstale]; exact hlcp
          have hrmne : rm.isEmpty = false :=
            List.isEmpty_eq_false.mpr (OpenRec_ne_nil hopen)
          have hrmmem : rm ∈ keyRows keyFields k result := by
            rw [hrows]
            exact List.mem_append_right _ (List.mem_singleton_self _)
          have hkrm : rowKey keyFields rm = some k := by
            unfold keyRows at hrmmem
            have := (List.mem_filter.mp hrmmem).2
            simpa using this
          rcases scdStep_cases hk hstep with
            ⟨hlook', _⟩ | ⟨pos', hlook', hemp', hres⟩ |
            ⟨pos', ex, hlook', hval', hempf, hchg, hres⟩ |
            ⟨pos', ex, hlook', hval', hempf, hchg, hres⟩
          · rw [hlook] at hlook'; exact Option.noConfusion hlook'
          · -- empty-dict branch impossible: the open version is non-empty
            exfalso
            rw [hlook] at hlook'
            have hpp : pos = pos' := Option.some_inj.mp hlook'
            rw [← hpp, hval] at hemp'
            simp only [Option.getD_some] at hemp'
            rw [hrmne] at hemp'
            exact Bool.noConfusion hemp'
          · -- close-and-open
            rw [hlook] at hlook'
            have hpp : pos = pos' := Option.some_inj.mp hlook'
            subst hpp
            rw [hval] at hval'
            have hexrm : ex = rm := (Option.some_inj.mp hval').symm
            subst hexrm
            have hkclose : rowKey keyFields
                (closeRow endF curF (.vtime t') ex) = some k := by
              rw [rowKey_closeRow ex hdisj]; exact hkrm
            obtain ⟨init, hinit, hset⟩ :=
              keyRows_set_last hval hkrm hafter hkclose
            have hinitcls : init = cls := by
              have h2 : init ++ [ex] = cls ++ [ex] := by rw [← hinit, hrows]
              have h3 := congrArg List.dropLast h2
              rwa [List.dropLast_concat, List.dropLast_concat] at h3
            rw [hinitcls] at hset
            subst hres
            refine ⟨?_, ?_, ?_⟩
            · intro r hr
              rcases List.mem_append.mp hr with hr | hr
              · rcases List.mem_or_eq_of_mem_set hr with hr | hr
                · exact hkeys r hr
                · rw [hr, hkclose]; rfl
              · rw [List.mem_singleton.mp hr, hkopen]; rfl
            · intro k₂ hk₂
              rw [keyRows_append_nomatch (by rw [hkopen]; simp [Ne.symm hk₂]),
                keyRows_set_nomatch hval (by rw [hkrm]; simp [Ne.symm hk₂])
                  (by rw [hkclose]; simp [Ne.symm hk₂])]
            · rw [keyRows_append_match hkopen, hset]
              refine Or.inr ⟨cls ++ [closeRow endF curF (.vtime t') ex], _, t',
                rfl, ?_, mkOpen_get_eff s hen hec, le_refl t',
                mkOpen_get_end s hnc, mkOpen_get_cur s⟩
              exact ClosedSeq.snoc hcls
                (by rw [closeRow_get_other ex hen hec]; exact heff)
                (closeRow_get_end ex hnc) (closeRow_get_cur ex) helt
          · -- unchanged: no-op
            subst hres
            have hunch : ∀ k₂, keyRows keyFields k₂ result₁ =
                keyRows keyFields k₂ result₁ := fun _ => rfl
            exact ⟨hkeys, fun _ _ => rfl, hchains k⟩
      obtain ⟨hkeys₁, hother₁, hkchain₁⟩ := hmain
      have hcoh₁ : IdxCoh keyFields idx result₁ :=
        scdStep_preserves_IdxCoh hdisj hk hstep hcoh
      have hchains₁ : ∀ k₂, KChain effF endF curF t'
          (keyRows keyFields k₂ result₁) := by
        intro k₂
        by_cases hk₂ : k₂ = k
        · rw [hk₂]; exact hkchain₁
        · rw [hother₁ k₂ hk₂]; exact hchains k₂
      have hss₁ : ∀ s₂ ∈ rest, ∀ k₂, rowKey keyFields s₂ = some k₂ →
          StaleOK keyFields curF idx k₂ result₁ ∧
          keyRows keyFields k₂ result₁ = keyRows keyFields k₂ R := by
        intro s₂ hs₂ k₂ hk₂
        have hne : k₂ ≠ k := by
          intro hcontra
          subst hcontra
          exact hheadne s₂ hs₂ (by rw [hk, hk₂])
        obtain ⟨hst₂, hkr₂⟩ := hss s₂ (List.mem_cons_of_mem _ hs₂) k₂ hk₂
        refine ⟨?_, ?_⟩
        · unfold StaleOK
          rw [(scdStep_preserves_other hdisj hk hstep hcoh hne).1]
          exact hst₂
        · rw [hother₁ k₂ hne]; exact hkr₂
      exact ih hloop hpairrest hkeys₁ hcoh₁ hchains₁ hss₁

/-- One full engine application preserves the per-key chain shape. -/
theorem apply_preserves_chains
    (hdisj : KeysDisj keyFields effF endF curF)
    (hen : effF ≠ endF) (hec : effF ≠ curF) (hnc : endF ≠ curF)
    {R S R' : List Record} {t' : Nat}
    (hpair : S.Pairwise (fun a b => rowKey keyFields a ≠ rowKey keyFields b))
    (hkeys : ∀ r ∈ R, (rowKey keyFields r).isSome)
    (hRS : ∀ k, KChainS effF endF curF t' (keyRows keyFields k R))
    (happ : apply_scd_type2 R S keyFields effF endF curF (.vtime t') = some R') :
    (∀ r ∈ R', (rowKey keyFields r).isSome) ∧
    (∀ k, KChain effF endF curF t' (keyRows keyFields k R')) := by
  unfold apply_scd_type2 at happ
  cases hidx : buildIndexFrom keyFields curF 0 R with
  | none => rw [hidx] at happ; exact Option.noConfusion happ
  | some idx =>
    rw [hidx] at happ
    have hzero : ∀ (o : Option Nat), o.map (fun j => 0 + j) = o := by
      intro o; cases o <;> simp
    have hcoh : IdxCoh keyFields idx R := by
      intro kp hkp
      obtain ⟨j, r, hj, hr, _, hkey⟩ := buildIndexFrom_mem hidx kp hkp
      exact ⟨r, by rw [hj, Nat.zero_add]; exact hr, hkey⟩
    have hss : ∀ s ∈ S, ∀ k, rowKey keyFields s = some k →
        StaleOK keyFields curF idx k R ∧
        keyRows keyFields k R = keyRows keyFields k R := by
      intro s _ k _
      refine ⟨?_, rfl⟩
      unfold StaleOK
      rw [idxLookup_buildIndexFrom hidx k, hzero]
    exact applyLoop_preserves_chains hdisj hen hec hnc hRS happ hpair hkeys
      hcoh (fun k => KChain_of_KChainS (hRS k)) hss

/-- N successive engine applications, each with its own execution instant —
the repeated-run harness the partition-invariant claim quantifies over. -/
def applySeq (keyFields : List String) (effF endF curF : String) :
    List Record → List (List Record × Nat) → Option (List Record)
  | R, [] => some R
  | R, (S, t) :: rest =>
    match apply_scd_type2 R S keyFields effF endF curF (.vtime t) with
    | none => none
    | some R' => applySeq keyFields effF endF curF R' rest

theorem applySeq_chains
    (hdisj : KeysDisj keyFields effF endF curF)
    (hen : effF ≠ endF) (hec : effF ≠ curF) (hnc : endF ≠ curF) :
    ∀ {steps : List (List Record × Nat)} {R₀ R : List Record},
      applySeq keyFields effF endF curF R₀ steps = some R →
      (∀ p ∈ steps,
        p.1.Pairwise (fun a b => rowKey keyFields a ≠ rowKey keyFields b)) →
      List.Chain' (· < ·) (steps.map Prod.snd) →
      (∀ r ∈ R₀, (rowKey keyFields r).isSome) →
      (∀ t₁, (steps.map Prod.snd).head? = some t₁ →
        ∀ k, KChainS effF endF curF t₁ (keyRows keyFields k R₀)) →
      (∃ T, ∀ k, KChain effF endF curF T (keyRows keyFields k R₀)) →
      (∀ r ∈ R, (rowKey keyFields r).isSome) ∧
      (∃ T, ∀ k, KChain effF endF curF T (keyRows keyFields k R)) := by
  intro steps
  induction steps with
  | nil =>
    intro R₀ R happ _ _ hkeys _ hbase
    simp only [applySeq, Option.some_inj] at happ
    subst happ
    exact ⟨hkeys, hbase⟩
  | cons p rest ih =>
    intro R₀ R happ hpair htimes hkeys hhead hbase
    obtain ⟨S, t⟩ := p
    simp only [applySeq] at happ
    cases hstep : apply_scd_type2 R₀ S keyFields effF endF curF (.vtime t) with
    | none => rw [hstep] at happ; exact Option.noConfusion happ
    | some R₁ =>
      rw [hstep] at happ
      have hKS : ∀ k, KChainS effF endF curF t (keyRows keyFields k R₀) :=
        hhead t (by simp)
      obtain ⟨hkeys₁, hchains₁⟩ := apply_preserves_chains hdisj hen hec hnc
        (hpair (S, t) (List.mem_cons_self _ _)) hkeys hKS hstep
      have htimes' := (List.chain'_cons'.mp (by simpa using htimes))
      refine ih happ
        (fun q hq => hpair q (List.mem_cons_of_mem _ hq))
        htimes'.2 hkeys₁ ?_ ⟨t, hchains₁⟩
      intro t₂ ht₂ k
      have hlt : t < t₂ := htimes'.1 t₂ ht₂
      exact KChainS_of_KChain (hchains₁ k) hlt

/-- Adjacency along a closed run, plus what its last element looks like. -/
theorem ClosedSeq_adjacent {cls : List Record} {e : Nat}
    (h : ClosedSeq effF endF curF cls e) :
    List.Chain' (fun a b => ∃ ea eb : Nat,
      Record.get a effF = some (.vtime ea) ∧
      Record.get b effF = some (.vtime eb) ∧ ea < eb ∧
      Record.get a endF = some (.vtime eb)) cls ∧
    (∀ last, cls.getLast? = some last →
      Record.get last endF = some (.vtime e) ∧
      ∃ el, Record.get last effF = some (.vtime el) ∧ el < e) := by
  induction h with
  | nil => exact ⟨List.chain'_nil, fun last hlast => by simp at hlast⟩
  | snoc hrs heff hend hcur hlt ih =>
    rename_i rs0 r0 e0 e0'
    constructor
    · refine List.chain'_append.mpr ⟨ih.1, List.chain'_singleton _, ?_⟩
      intro x hx y hy
      have hyr : r0 = y := by simpa using hy
      obtain ⟨hendx, el, heffx, hlt'⟩ := ih.2 x (by simpa using hx)
      refine ⟨el, e0, heffx, ?_, hlt', hendx⟩
      rw [← hyr]
      exact heff
    · intro last hlast
      rw [List.getLast?_concat] at hlast
      have hl : r0 = last := Option.some_inj.mp hlast
      rw [← hl]
      exact ⟨hend, e0, heff, hlt⟩

/-- A per-key SCD2 chain links consecutive versions: each version's
`end_date` equals the next version's `effective_date`, and effective dates
strictly increase along the stored order. -/
theorem KChain_adjacent {t : Nat} {rows : List Record}
    (h : KChain effF endF curF t rows) :
    List.Chain' (fun a b => ∃ ea eb : Nat,
      Record.get a effF = some (.vtime ea) ∧
      Record.get b effF = some (.vtime eb) ∧ ea < eb ∧
      Record.get a endF = some (.vtime eb)) rows := by
  rcases h with h | ⟨cls, rm, e, hrows, hcls, heff, _, _⟩
  · rw [h]; exact List.chain'_nil
  · rw [hrows]
    refine List.chain'_append.mpr
      ⟨(ClosedSeq_adjacent hcls).1, List.chain'_singleton _, ?_⟩
    intro x hx y hy
    have hyr : rm = y := by simpa using hy
    obtain ⟨hendx, el, heffx, hlt'⟩ := (ClosedSeq_adjacent hcls).2 x
      (by simpa using hx)
    refine ⟨el, e, heffx, ?_, hlt', hendx⟩
    rw [← hyr]
    exact heff

/-- A per-key SCD2 chain has exactly one open (`end_date = None`) version. -/
theorem KChain_one_open {t : Nat} {rows : List Record}
    (h : KChain effF endF curF t rows) (hne : rows ≠ []) :
    (rows.filter (fun r => Record.get r endF == some Value.vnone)).length = 1 := by
  rcases h with h | ⟨cls, rm, e, hrows, hcls, _, _, hopen⟩
  · exact absurd h hne
  · rw [hrows, List.filter_append]
    have h1 : cls.filter (fun r => Record.get r endF == some Value.vnone) = [] := by
      rw [List.filter_eq_nil_iff]
      intro r hr
      obtain ⟨ee, hee⟩ := ClosedSeq_end hcls r hr
      simp [hee]
    rw [h1]
    simp [hopen.1]

end PartitionInvariant

/-- **C2 (amended).** Starting from the empty historized set, after N
successive applications of `apply_scd_type2` with snapshots each holding at
most one record per key (pairwise-distinct key tuples, key fields disjoint
from the SCD metadata fields), at strictly increasing execution instants:
for every key that has records in the result, those records — already
stored in strictly increasing `effective_date` order — satisfy
`end_date[i] = effective_date[i+1]` for consecutive versions and exactly
one of them has `end_date = None`.  (As stated, over arbitrary initial sets
or snapshots with duplicate keys, the claim is false — see the
counterexample.) -/
theorem scd_partition_invariant
    (steps : List (List Record × Nat)) (keyFields : List String)
    (R : List Record)
    (hdisj : KeysDisj keyFields effD endD curD)
    (hpair : ∀ p ∈ steps,
      p.1.Pairwise (fun a b => rowKey keyFields a ≠ rowKey keyFields b))
    (htimes : List.Chain' (· < ·) (steps.map Prod.snd))
    (happ : applySeq keyFields effD endD curD [] steps = some R) :
    ∀ k, (∃ r ∈ R, rowKey keyFields r = some k) →
      List.Chain' (fun a b => ∃ ea eb : Nat,
        Record.get a effD = some (.vtime ea) ∧
        Record.get b effD = some (.vtime eb) ∧ ea < eb ∧
        Record.get a endD = some (.vtime eb)) (keyRows keyFields k R) ∧
      ((keyRows keyFields k R).filter
        (fun r => Record.get r endD == some Value.vnone)).length = 1 := by
  have hd1 : effD ≠ endD := by decide
  have hd2 : effD ≠ curD := by decide
  have hd3 : endD ≠ curD := by decide
  obtain ⟨_, T, hchains⟩ := applySeq_chains hdisj hd1 hd2 hd3 happ hpair
    htimes (fun r hr => absurd hr (List.not_mem_nil r))
    (fun t₁ _ k => Or.inl rfl) ⟨0, fun k => Or.inl rfl⟩
  rintro k ⟨r, hr, hkr⟩
  have hne : keyRows keyFields k R ≠ [] := by
    intro hnil
    exact (keyRows_eq_nil_iff.mp hnil r hr) hkr
  exact ⟨KChain_adjacent (hchains k), KChain_one_open (hchains k) hne⟩

/-- Witness for `scd_partition_invariant`: the two-snapshot example run. -/
theorem scd_partition_invariant_witness :
    List.Chain' (fun a b => ∃ ea eb : Nat,
      Record.get a effD = some (.vtime ea) ∧
      Record.get b effD = some (.vtime eb) ∧ ea < eb ∧
      Record.get a endD = some (.vtime eb))
      (keyRows ["id"] [.vint 1]
        [[("id", .vint 1), ("state", .vstr "a"),
          ("effective_date", .vtime 1), ("end_date", .vtime 2),
          ("is_current", .vbool false)],
         [("id", .vint 1), ("state", .vstr "b"),
          ("effective_date", .vtime 2), ("end_date", .vnone),
          ("is_current", .vbool true)]]) ∧
    ((keyRows ["id"] [.vint 1]
        [[("id", .vint 1), ("state", .vstr "a"),
          ("effective_date", .vtime 1), ("end_date", .vtime 2),
          ("is_current", .vbool false)],
         [("id", .vint 1), ("state", .vstr "b"),
          ("effective_date", .vtime 2), ("end_date", .vnone),
          ("is_current", .vbool true)]]).filter
      (fun r => Record.get r endD == some Value.vnone)).length = 1 :=
  scd_partition_invariant
    [([[("id", .vint 1), ("state", .vstr "a")]], 1),
     ([[("id", .vint 1), ("state", .vstr "b")]], 2)] ["id"]
    [[("id", .vint 1), ("state", .vstr "a"),
      ("effective_date", .vtime 1), ("end_date", .vtime 2),
      ("is_current", .vbool false)],
     [("id", .vint 1), ("state", .vstr "b"),
      ("effective_date", .vtime 2), ("end_date", .vnone),
      ("is_current", .vbool true)]]
    (by intro k hk; fin_cases hk; exact ⟨by decide, by decide, by decide⟩)
    (by intro p hp; fin_cases hp <;> simp)
    (by simp [List.chain'_cons])
    (by decide)
    [.vint 1]
    ⟨[("id", .vint 1), ("state", .vstr "a"),
      ("effective_date", .vtime 1), ("end_date", .vtime 2),
      ("is_current", .vbool false)], by decide, by decide⟩

/-- The snapshot used to exhibit the stale-index behaviour: two records for
the same (fresh) key in one snapshot. -/
def dupSnap : List Record :=
  [[("id", .vint 2), ("state", .vstr "a")],
   [("id", .vint 2), ("state", .vstr "b")]]

/-- The historized set produced by applying `dupSnap` to the empty set at
time 1: two open versions for key 2. -/
def dupResult : List Record :=
  [[("id", .vint 2), ("state", .vstr "a"),
    ("effective_date", .vtime 1), ("end_date", .vnone),
    ("is_current", .vbool true)],
   [("id", .vint 2), ("state", .vstr "b"),
    ("effective_date", .vtime 1), ("end_date", .vnone),
    ("is_current", .vbool true)]]

/-- **C1.** The SCD2 example scenario: from the empty historized set,
snapshot `{id:1, state:"active"}` at `T1` yields exactly the one open record
`{id:1, state:"active", effective_date:T1, end_date:None, is_current:True}`;
snapshot `{id:1, state:"blocked"}` at `T2` closes it with `end_date = T2`
and opens a new record at `T2`; re-applying the same snapshot at `T3`
leaves the set unchanged. -/
theorem scd_example_scenario (t1 t2 t3 : Nat) :
    applySCD [] [[("id", .vint 1), ("state", .vstr "active")]] ["id"] (.vtime t1) =
      some [[("id", .vint 1), ("state", .vstr "active"),
             ("effective_date", .vtime t1), ("end_date", .vnone),
             ("is_current", .vbool true)]] ∧
    applySCD [[("id", .vint 1), ("state", .vstr "active"),
               ("effective_date", .vtime t1), ("end_date", .vnone),
               ("is_current", .vbool true)]]
        [[("id", .vint 1), ("state", .vstr "blocked")]] ["id"] (.vtime t2) =
      some [[("id", .vint 1), ("state", .vstr "active"),
             ("effective_date", .vtime t1), ("end_date", .vtime t2),
             ("is_current", .vbool false)],
            [("id", .vint 1), ("state", .vstr "blocked"),
             ("effective_date", .vtime t2), ("end_date", .vnone),
             ("is_current", .vbool true)]] ∧
    applySCD [[("id", .vint 1), ("state", .vstr "active"),
               ("effective_date", .vtime t1), ("end_date", .vtime t2),
               ("is_current", .vbool false)],
              [("id", .vint 1), ("state", .vstr "blocked"),
               ("effective_date", .vtime t2), ("end_date", .vnone),
               ("is_current", .vbool true)]]
        [[("id", .vint 1), ("state", .vstr "blocked")]] ["id"] (.vtime t3) =
      some [[("id", .vint 1), ("state", .vstr "active"),
             ("effective_date", .vtime t1), ("end_date", .vtime t2),
             ("is_current", .vbool false)],
            [("id", .vint 1), ("state", .vstr "blocked"),
             ("effective_date", .vtime t2), ("end_date", .vnone),
             ("is_current", .vbool true)]] := by
  refine ⟨?_, ?_, ?_⟩ <;>
    simp [applySCD, apply_scd_type2, buildIndexFrom, applyLoop, scdStep, rowKey,
      idxLookup, changedB, mkOpen, closeRow, Record.get, Record.getD, Record.set,
      isCurrentRow, Value.truthy, effD, endD, curD, List.find?]

/-- **C10.** The engine indexes the current versions once, before the loop,
and inserts are never added to that index: a snapshot carrying two records
for the same fresh key produces two records for that key that are both open
(`end_date = None`, `is_current = True`). -/
theorem scd_stale_index_duplicate_key :
    applySCD [] dupSnap ["id"] (.vtime 1) = some dupResult ∧
    (dupResult.filter fun r =>
        rowKey ["id"] r == some [.vint 2] &&
        Record.get r "end_date" == some .vnone &&
        Record.get r "is_current" == some (.vbool true)).length = 2 := by
  decide

/-- **C2 (counterexample).** After a single application to the empty set of a
snapshot holding two records for key 2, the resulting records for key 2
include two with `end_date = None` — not exactly one, refuting the partition
invariant as stated for arbitrary snapshot sequences. -/
theorem scd_partition_counterexample :
    applySCD [] dupSnap ["id"] (.vtime 1) = some dupResult ∧
    ((dupResult.filter fun r => rowKey ["id"] r == some [.vint 2]).filter
        fun r => Record.get r "end_date" == some .vnone).length ≠ 1 := by
  decide

/-- **C3 (counterexample).** Applying the duplicate-key snapshot a second
time to the result of the first application adds a third record and rewrites
the `end_date` of an already-present record (the second version gets closed
at the new timestamp), refuting idempotence for arbitrary snapshots. -/
theorem scd_idempotence_counterexample :
    applySCD [] dupSnap ["id"] (.vtime 1) = some dupResult ∧
    applySCD dupResult dupSnap ["id"] (.vtime 2) =
      some [[("id", .vint 2), ("state", .vstr "a"),
             ("effective_date", .vtime 1), ("end_date", .vnone),
             ("is_current", .vbool true)],
            [("id", .vint 2), ("state", .vstr "b"),
             ("effective_date", .vtime 1), ("end_date", .vtime 2),
             ("is_current", .vbool false)],
            [("id", .vint 2), ("state", .vstr "a"),
             ("effective_date", .vtime 2), ("end_date", .vnone),
             ("is_current", .vbool true)]] ∧
    applySCD dupResult dupSnap ["id"] (.vtime 2) ≠ some dupResult := by
  decide

/-- **C4 (counterexample).** A snapshot in which the second record lacks the
key field `id` makes the whole `apply_scd_type2` call raise (`KeyError`),
so the rest of the snapshot is *not* applied and no partial result is
returned — refuting the reject-and-continue failure semantics. -/
theorem scd_missing_key_counterexample :
    applySCD [] [[("id", .vint 1), ("state", .vstr "a")],
                 [("state", .vstr "b")],
                 [("id", .vint 3), ("state", .vstr "c")]] ["id"] (.vtime 1) =
      none := by
  decide

/-- **C4 (amended).** Whenever any record of the incoming snapshot is missing
one of the key fields, `apply_scd_type2` raises `KeyError` and the whole call
aborts with no result: nothing is historized (in particular the defective
record is not historized under a degenerate key, and the remaining records
are not applied either). -/
theorem scd_missing_key_aborts (current_data new_data : List Record)
    (keyFields : List String) (effF endF curF : String) (now : Value)
    (h : ∃ r ∈ new_data, ∃ k ∈ keyFields, Record.get r k = none) :
    apply_scd_type2 current_data new_data keyFields effF endF curF now = none := by
  obtain ⟨r, hr, k, hk, hmiss⟩ := h
  unfold apply_scd_type2
  cases hidx : buildIndexFrom keyFields curF 0 current_data with
  | none => rfl
  | some idx =>
    exact applyLoop_none_of_mem hr (rowKey_none_of_missing hk hmiss) current_data

/-- Witness for `scd_missing_key_aborts` at a concrete input. -/
theorem scd_missing_key_aborts_witness :
    apply_scd_type2 [] [[("state", .vstr "b")]] ["id"] effD endD curD
        (.vtime 1) = none :=
  scd_missing_key_aborts [] [[("state", .vstr "b")]] ["id"] effD endD curD
    (.vtime 1) ⟨[("state", .vstr "b")], by decide, "id", by decide, by decide⟩

section RetryModels
/-!
### Retry loops of the GitLab clients

`GitLabClient._fetch_users_with_retry`
(src/extractors/gitlab/gitlab_client.py):

```python
for attempt in range(self._max_retry_attempts):
    try:
        return self._gitlab_client.users.list(**query_parameters)
    except gitlab.GitlabGetError as e:
        if e.response_code == 429 and self._retry_on_rate_limit:
            self._handle_rate_limit_error(attempt)
        else:
            raise
    except Exception as e:
        if attempt == self._max_retry_attempts - 1:
            raise
        self._logger.warning(f"Attempt {attempt + 1} failed: {e}")
        time.sleep(self._retry_delay_seconds)
raise APIConnectionError("Max retry attempts exceeded")
```

with `_handle_rate_limit_error(attempt)`:

```python
if attempt == self._max_retry_attempts - 1:
    raise APIRateLimitError("GitLab API rate limit exceeded")
delay = self._retry_delay_seconds * (2 ** attempt)  # Exponential backoff
time.sleep(delay)
```

`GitLabClient._connect` (src/adapters/gitlab/gitlab_client.py):

```python
for attempt in range(self.retry_count):
    try:
        self._gl = gitlab.Gitlab(...)
        self._gl.auth()
        return
    except GitlabAuthenticationError as e:
        raise ConnectionError(f"Erreur d'authentification GitLab: {str(e)}")
    except (GitlabError, requests.RequestException) as e:
        if attempt == self.retry_count - 1:
            raise ConnectionError(f"Échec de connexion à GitLab: {str(e)}")
        else:
            delay = self.retry_delay * (2 ** attempt)
            time.sleep(delay)
```

The wrapped operation is modelled as a function from the attempt number to
its outcome; a trace records the number of invocations, the sleeps
performed (in order), and what the call terminated with.
`DEFAULT_GITLAB_MAX_RETRIES = 3` (src/core/constants.py).
-/

/-- The exception class a run terminates with. -/
inductive PyError where
  | connectionError            -- builtin `ConnectionError`
  | apiConnectionError         -- `APIConnectionError`
  | apiAuthenticationError     -- `APIAuthenticationError`
  | apiRateLimitError          -- `APIRateLimitError`
  | gitlabGetError (code : Nat)
  | otherException
deriving DecidableEq, Repr

/-- Outcome of one invocation of the wrapped users-list call. -/
inductive OpOutcome where
  | ok
  | gitlabGetError (code : Nat)
  | otherExc
deriving DecidableEq, Repr

/-- Termination of a retry run. -/
inductive RunOutcome where
  | success
  | raised (e : PyError)
deriving DecidableEq, Repr

/-- Observable trace of one retry run: how often the operation was invoked,
which waits happened in between, and how the call ended. -/
structure RunTrace where
  attempts : Nat
  sleeps : List Nat
  outcome : RunOutcome
deriving DecidableEq, Repr

/-- The `for attempt in range(max)` loop of `_fetch_users_with_retry`,
including `_handle_rate_limit_error`; structural recursion on the number of
remaining iterations. -/
def fetchUsersAux (op : Nat → OpOutcome) (maxA baseDelay : Nat)
    (retryOnRateLimit : Bool) : Nat → Nat → Nat → List Nat → RunTrace
  | 0, _, calls, sleeps => ⟨calls, sleeps.reverse, .raised .apiConnectionError⟩
  | remaining + 1, attempt, calls, sleeps =>
    match op attempt with
    | .ok => ⟨calls + 1, sleeps.reverse, .success⟩
    | .gitlabGetError code =>
      if code = 429 ∧ retryOnRateLimit = true then
        if attempt = maxA - 1 then
          ⟨calls + 1, sleeps.reverse, .raised .apiRateLimitError⟩
        else
          fetchUsersAux op maxA baseDelay retryOnRateLimit remaining
            (attempt + 1) (calls + 1) (baseDelay * 2 ^ attempt :: sleeps)
      else ⟨calls + 1, sleeps.reverse, .raised (.gitlabGetError code)⟩
    | .otherExc =>
      if attempt = maxA - 1 then ⟨calls + 1, sleeps.reverse, .raised .otherException⟩
      else
        fetchUsersAux op maxA baseDelay retryOnRateLimit remaining
          (attempt + 1) (calls + 1) (baseDelay :: sleeps)

/-- `GitLabClient._fetch_users_with_retry`. -/
def fetchUsersWithRetry (op : Nat → OpOutcome) (maxA baseDelay : Nat)
    (retryOnRateLimit : Bool) : RunTrace :=
  fetchUsersAux op maxA baseDelay retryOnRateLimit maxA 0 0 []

/-- Outcome of one connection attempt of the adapter client. -/
inductive ConnOutcome where
  | ok
  | gitlabAuthError        -- `GitlabAuthenticationError`
  | transientError         -- `GitlabError` / `requests.RequestException`
deriving DecidableEq, Repr

/-- Termination of `_connect`: connected, raised, or fell off the loop end
(returns `None` when `retry_count = 0`). -/
inductive ConnResult where
  | connected
  | raised (e : PyError)
  | fellThrough
deriving DecidableEq, Repr

/-- Observable trace of one `_connect` run. -/
structure ConnTrace where
  attempts : Nat
  sleeps : List Nat
  outcome : ConnResult
deriving DecidableEq, Repr

/-- The `for attempt in range(retry_count)` loop of the adapter client's
`_connect`.  Both the auth failure and the exhausted-transient cases raise
the builtin `ConnectionError`. -/
def connectAux (op : Nat → ConnOutcome) (retryCount delay : Nat) :
    Nat → Nat → Nat → List Nat → ConnTrace
  | 0, _, calls, sleeps => ⟨calls, sleeps.reverse, .fellThrough⟩
  | remaining + 1, attempt, calls, sleeps =>
    match op attempt with
    | .ok => ⟨calls + 1, sleeps.reverse, .connected⟩
    | .gitlabAuthError => ⟨calls + 1, sleeps.reverse, .raised .connectionError⟩
    | .transientError =>
      if attempt = retryCount - 1 then
        ⟨calls + 1, sleeps.reverse, .raised .connectionError⟩
      else
        connectAux op retryCount delay remaining (attempt + 1) (calls + 1)
          (delay * 2 ^ attempt :: sleeps)

/-- `GitLabClient._connect` of the adapter client. -/
def adapterConnect (op : Nat → ConnOutcome) (retryCount delay : Nat) :
    ConnTrace :=
  connectAux op retryCount delay retryCount 0 0 []

/-- Outcome of the single `auth()` call of `establish_connection`. -/
inductive EstOutcome where
  | ok
  | gitlabAuthError
  | gitlabGetError
  | otherError
deriving DecidableEq, Repr

/-- `GitLabClient.establish_connection` of the extractor client: exactly one
`auth()` call; `GitlabAuthenticationError` is wrapped in
`APIAuthenticationError`, anything else in `APIConnectionError`.  The first
component counts invocations of the underlying call. -/
def establishConnection (op : EstOutcome) : Nat × RunOutcome :=
  match op with
  | .ok => (1, .success)
  | .gitlabAuthError => (1, .raised .apiAuthenticationError)
  | .gitlabGetError => (1, .raised .apiConnectionError)
  | .otherError => (1, .raised .apiConnectionError)

end RetryModels

/-- **C5 (counterexample).** With `max_retries = 3` and an operation that
raises a transient error on every invocation, `_fetch_users_with_retry`
invokes the operation exactly **3** times (not 4) and re-raises the last
underlying error (not a ConnectionError-class error); the adapter's
`_connect` likewise makes exactly 3 attempts. -/
theorem retry_bounded_counterexample :
    fetchUsersWithRetry (fun _ => .otherExc) 3 5 true =
      ⟨3, [5, 5], .raised .otherException⟩ ∧
    adapterConnect (fun _ => .transientError) 3 1 =
      ⟨3, [1, 2], .raised .connectionError⟩ ∧
    (3 : Nat) ≠ 4 ∧
    RunOutcome.raised .otherException ≠ .raised .apiConnectionError := by
  decide

/-- **C5 (amended).** With `max_retries = 3` and an always-transient
operation, the retry loops invoke the operation exactly `max_retries = 3`
times in total; `_fetch_users_with_retry` then re-raises the last
underlying error, while the adapter's `_connect` raises `ConnectionError`
(after sleeping `delay * 2^attempt` between attempts). -/
theorem retry_bounded_three_attempts
    (op : Nat → OpOutcome) (op' : Nat → ConnOutcome) (base d : Nat)
    (rrl : Bool)
    (h : ∀ n, op n = .otherExc) (h' : ∀ n, op' n = .transientError) :
    fetchUsersWithRetry op 3 base rrl =
      ⟨3, [base, base], .raised .otherException⟩ ∧
    adapterConnect op' 3 d =
      ⟨3, [d * 2 ^ 0, d * 2 ^ 1], .raised .connectionError⟩ := by
  constructor
  · simp [fetchUsersWithRetry, fetchUsersAux, h 0, h 1, h 2]
  · simp [adapterConnect, connectAux, h' 0, h' 1, h' 2]

/-- Witness for `retry_bounded_three_attempts` at concrete operations. -/
theorem retry_bounded_three_attempts_witness :
    fetchUsersWithRetry (fun _ => .otherExc) 3 7 false =
      ⟨3, [7, 7], .raised .otherException⟩ ∧
    adapterConnect (fun _ => .transientError) 3 7 =
      ⟨3, [7 * 2 ^ 0, 7 * 2 ^ 1], .raised .connectionError⟩ :=
  retry_bounded_three_attempts (fun _ => .otherExc) (fun _ => .transientError)
    7 7 false (fun _ => rfl) (fun _ => rfl)

/-- **C6 (counterexample).** An authentication failure on the first attempt
of the adapter's `_connect` is indeed never retried (exactly 1 attempt), but
what reaches the caller is the builtin `ConnectionError` wrapping the auth
message — not an AuthenticationError-class error. -/
theorem auth_short_circuit_counterexample :
    adapterConnect (fun _ => .gitlabAuthError) 3 5 =
      ⟨1, [], .raised .connectionError⟩ ∧
    PyError.connectionError ≠ PyError.apiAuthenticationError := by
  decide

/-- **C6 (amended).** An auth failure on the first invocation short-circuits
every retry loop after exactly one attempt: the extractor's
`establish_connection` raises `APIAuthenticationError`, while the adapter's
`_connect` wraps the failure in the builtin `ConnectionError`. -/
theorem auth_short_circuit_one_attempt
    (op : Nat → ConnOutcome) (d : Nat)
    (h : op 0 = .gitlabAuthError) :
    adapterConnect op 3 d = ⟨1, [], .raised .connectionError⟩ ∧
    establishConnection .gitlabAuthError =
      (1, .raised .apiAuthenticationError) := by
  constructor
  · simp [adapterConnect, connectAux, h]
  · rfl

/-- Witness for `auth_short_circuit_one_attempt`. -/
theorem auth_short_circuit_one_attempt_witness :
    adapterConnect (fun _ => .gitlabAuthError) 3 9 =
      ⟨1, [], .raised .connectionError⟩ ∧
    establishConnection .gitlabAuthError =
      (1, .raised .apiAuthenticationError) :=
  auth_short_circuit_one_attempt (fun _ => .gitlabAuthError) 9 rfl

/-- **C7 (counterexample).** Under repeated 429 responses with
`retry_delay = 5` and `max_retries = 3`, the waits are `[5, 10]` — the
second wait is `5 * 2^1`, not the flat `base_retry_delay`, and no
server-advertised delay is consulted (the handler reads none); the final
attempt raises `APIRateLimitError`. -/
theorem rate_limit_delay_counterexample :
    fetchUsersWithRetry (fun _ => .gitlabGetError 429) 3 5 true =
      ⟨3, [5, 10], .raised .apiRateLimitError⟩ ∧
    (10 : Nat) ≠ 5 ∧ (10 : Nat) = 5 * 2 ^ 1 := by
  decide

/-- **C7 (amended).** On rate-limit (429) failures with retrying enabled,
each wait is taken from the exponential backoff schedule
`base_retry_delay * 2^attempt` (the server-advertised delay is never
consulted — `_handle_rate_limit_error` reads no response header), and the
final attempt raises `APIRateLimitError` without waiting. -/
theorem rate_limit_exponential_backoff
    (op : Nat → OpOutcome) (base : Nat)
    (h : ∀ n, op n = .gitlabGetError 429) :
    fetchUsersWithRetry op 3 base true =
      ⟨3, [base * 2 ^ 0, base * 2 ^ 1], .raised .apiRateLimitError⟩ := by
  simp [fetchUsersWithRetry, fetchUsersAux, h 0, h 1, h 2]

/-- Witness for `rate_limit_exponential_backoff`. -/
theorem rate_limit_exponential_backoff_witness :
    fetchUsersWithRetry (fun _ => .gitlabGetError 429) 3 5 true =
      ⟨3, [5 * 2 ^ 0, 5 * 2 ^ 1], .raised .apiRateLimitError⟩ :=
  rate_limit_exponential_backoff (fun _ => .gitlabGetError 429) 5
    (fun _ => rfl)

section SonarPagination
/-!
### `SonarQubeClient._paginated_get` (src/extractors/sonarqube/sonarqube_client.py)

```python
page = 1
has_more = True
while has_more:
    params["p"] = page          # (or params["pageIndex"])
    response_data = self._make_request("GET", endpoint, params)
    if "paging" in response_data:
        paging = response_data.get("paging", {})
        total = paging.get("total", 0)
        page_size = paging.get("pageSize", 100)
        current_page = paging.get("pageIndex", page)
        result_keys = [k for k, v in response_data.items()
                       if isinstance(v, list) and k != "paging"]
        if result_keys:
            items = response_data.get(result_keys[0], [])
            for item in items:
                yield item
            has_more = (current_page * page_size) < total
        else:
            has_more = False
    elif isinstance(response_data, list):
        for item in response_data:
            yield item
        has_more = len(response_data) >= params.get("ps", params.get("pageSize", 100))
    else:
        yield response_data
        has_more = False
    page += 1
```

The server is a function from the requested page number to its response;
the item type is abstract.  The `while` loop is modelled with a step bound
(`fuel`); the theorems hold for every sufficiently large bound, showing the
run is independent of it. -/

/-- One response of the SonarQube API, as the pagination code inspects it:
a paging object (with `total`, `pageSize`, optionally `pageIndex`, and the
single list-valued result key if any), a bare list, or anything else. -/
inductive SQResponse (α : Type) where
  | paged (total pageSize : Nat) (pageIndex : Option Nat)
      (items : Option (List α))
  | bare (items : List α)
  | other (v : α)

/-- The pagination loop; returns the pages requested (in order) and the
items yielded. -/
def paginatedGetAux {α : Type} (server : Nat → SQResponse α) (ps : Nat) :
    Nat → Nat → List Nat → List α → (List Nat × List α)
  | 0, _, reqs, acc => (reqs.reverse, acc)
  | fuel + 1, page, reqs, acc =>
    match server page with
    | .paged total pageSize pageIndex itemsOpt =>
      match itemsOpt with
      | some items =>
        if (pageIndex.getD page) * pageSize < total then
          paginatedGetAux server ps fuel (page + 1) (page :: reqs) (acc ++ items)
        else ((page :: reqs).reverse, acc ++ items)
      | none => ((page :: reqs).reverse, acc)
    | .bare items =>
      if ps ≤ items.length then
        paginatedGetAux server ps fuel (page + 1) (page :: reqs) (acc ++ items)
      else ((page :: reqs).reverse, acc ++ items)
    | .other v => ((page :: reqs).reverse, acc ++ [v])

/-- `SonarQubeClient._paginated_get`, starting at page 1. -/
def paginatedGet {α : Type} (server : Nat → SQResponse α) (ps fuel : Nat) :
    List Nat × List α :=
  paginatedGetAux server ps fuel 1 [] []

end SonarPagination

/-- **C8.** Against a page-count-convention server with `total = 205` and
`pageSize = 100` and one list-valued result key (100, 100 and 5 items on
pages 1–3), the paginated fetcher issues exactly the 3 successive page
requests `[1, 2, 3]` and yields exactly 205 records: it continues while
`current_page * page_size < total` and stops at the first page where that
fails — independently of the loop bound. -/
theorem sonar_pagination_205 {α : Type} (server : Nat → SQResponse α)
    (items : Nat → List α) (ps fuel : Nat)
    (hserver : ∀ p, server p = .paged 205 100 (some p) (some (items p)))
    (h1 : (items 1).length = 100) (h2 : (items 2).length = 100)
    (h3 : (items 3).length = 5) :
    (paginatedGet server ps (fuel + 3)).1 = [1, 2, 3] ∧
    (paginatedGet server ps (fuel + 3)).2.length = 205 := by
  have hrun : paginatedGet server ps (fuel + 3) =
      ([1, 2, 3], (items 1 ++ items 2) ++ items 3) := by
    unfold paginatedGet
    simp [paginatedGetAux, hserver 1, hserver 2, hserver 3]
  rw [hrun]
  simp [h1, h2, h3]

/-- Witness for `sonar_pagination_205` on a concrete server. -/
theorem sonar_pagination_205_witness :
    (paginatedGet (fun p => SQResponse.paged 205 100 (some p)
        (some (if p = 1 then List.range 100
               else if p = 2 then List.range 100
               else if p = 3 then List.range 5 else []))) 100 (0 + 3)).1 =
      [1, 2, 3] ∧
    (paginatedGet (fun p => SQResponse.paged 205 100 (some p)
        (some (if p = 1 then List.range 100
               else if p = 2 then List.range 100
               else if p = 3 then List.range 5 else []))) 100 (0 + 3)).2.length =
      205 :=
  sonar_pagination_205 _
    (fun p => if p = 1 then List.range 100
              else if p = 2 then List.range 100
              else if p = 3 then List.range 5 else []) 100 0
    (fun p => rfl) (by simp) (by simp) (by simp)

section Normalizer
/-!
### `GitLabClient._normalize_user_data` (src/extractors/gitlab/gitlab_client.py)

For each user, builds the normalized dict below from `user.asdict()`; the
final field is `'extraction_timestamp': time.strftime('%Y-%m-%d %H:%M:%S')`,
i.e. the wall clock at normalization time, which the embedding makes an
explicit argument. -/

/-- The clock-independent part of the normalized user record, in source
field order (`user_dict.get(...)`, with `[]` as the `identities` default). -/
def normalizeUserFields (u : Record) : Record :=
  [("user_id", Record.getD u "id" .vnone),
   ("username", Record.getD u "username" .vnone),
   ("name", Record.getD u "name" .vnone),
   ("email", Record.getD u "email" .vnone),
   ("state", Record.getD u "state" .vnone),
   ("avatar_url", Record.getD u "avatar_url" .vnone),
   ("web_url", Record.getD u "web_url" .vnone),
   ("created_at", Record.getD u "created_at" .vnone),
   ("bio", Record.getD u "bio" .vnone),
   ("location", Record.getD u "location" .vnone),
   ("public_email", Record.getD u "public_email" .vnone),
   ("skype", Record.getD u "skype" .vnone),
   ("linkedin", Record.getD u "linkedin" .vnone),
   ("twitter", Record.getD u "twitter" .vnone),
   ("website_url", Record.getD u "website_url" .vnone),
   ("organization", Record.getD u "organization" .vnone),
   ("job_title", Record.getD u "job_title" .vnone),
   ("last_sign_in_at", Record.getD u "last_sign_in_at" .vnone),
   ("confirmed_at", Record.getD u "confirmed_at" .vnone),
   ("theme_id", Record.getD u "theme_id" .vnone),
   ("color_scheme_id", Record.getD u "color_scheme_id" .vnone),
   ("projects_limit", Record.getD u "projects_limit" .vnone),
   ("current_sign_in_at", Record.getD u "current_sign_in_at" .vnone),
   ("identities", Record.getD u "identities" .vemptylist),
   ("can_create_group", Record.getD u "can_create_group" .vnone),
   ("can_create_project", Record.getD u "can_create_project" .vnone),
   ("two_factor_enabled", Record.getD u "two_factor_enabled" .vnone),
   ("external", Record.getD u "external" .vnone),
   ("private_profile", Record.getD u "private_profile" .vnone),
   ("commit_email", Record.getD u "commit_email" .vnone)]

/-- One normalized user: the stable fields plus the run's wall-clock string
as `extraction_timestamp` (the last key of the dict literal). -/
def normalizeUser (nowStr : String) (u : Record) : Record :=
  normalizeUserFields u ++ [("extraction_timestamp", .vstr nowStr)]

/-- `GitLabClient._normalize_user_data` over a list of users at one
wall-clock instant. -/
def normalize_user_data (nowStr : String) (users : List Record) :
    List Record :=
  users.map (normalizeUser nowStr)

theorem normalizeUserFields_no_timestamp (u : Record) :
    Record.get (normalizeUserFields u) "extraction_timestamp" = none := by
  simp [normalizeUserFields, Record.get, List.find?]

end Normalizer

/-- **C9 (counterexample).** The record normalizer is *not* a function of
the raw records alone: two runs on the same input at different wall-clock
instants produce different outputs, because each output record embeds
`extraction_timestamp = time.strftime(...)` — reading the clock is the
normalizer's hidden input. -/
theorem normalize_user_time_dependent_counterexample :
    normalize_user_data "2025-01-01 00:00:00" [[("id", .vint 1)]] ≠
      normalize_user_data "2025-01-01 00:00:01" [[("id", .vint 1)]] := by
  decide

/-- **C9 (amended).** The normalizer is deterministic given the wall clock:
it performs no I/O other than reading the current time, and two runs on the
same input agree on every field except `extraction_timestamp`, which always
holds the run's own clock string. -/
theorem normalize_user_clock_determinism (u : Record)
    (s₁ s₂ : String) (f : String) (hf : f ≠ "extraction_timestamp") :
    Record.get (normalizeUser s₁ u) f = Record.get (normalizeUser s₂ u) f ∧
    Record.get (normalizeUser s₁ u) "extraction_timestamp" =
      some (.vstr s₁) := by
  constructor
  · unfold normalizeUser
    rw [Record.get_append_single_ne hf, Record.get_append_single_ne hf]
  · unfold normalizeUser
    exact Record.get_append_single_self (normalizeUserFields_no_timestamp u)

/-- Witness for `normalize_user_clock_determinism`. -/
theorem normalize_user_clock_determinism_witness :
    Record.get (normalizeUser "2025-01-01 00:00:00" [[("id", .vint 1)]].head!)
        "username" =
      Record.get (normalizeUser "2025-01-01 00:00:01" [[("id", .vint 1)]].head!)
        "username" ∧
    Record.get (normalizeUser "2025-01-01 00:00:00" [[("id", .vint 1)]].head!)
        "extraction_timestamp" = some (.vstr "2025-01-01 00:00:00") :=
  normalize_user_clock_determinism _ _ _ "username" (by decide)

end DevOpsETL
